/-
Verification of the global layer scheduler `LayerOrderOptimizer`
(src/src/optimizers/layer_order_optimizer.cpp) of the
Slicer-2-with-Thermal-field-prediction-and-simulation repository.

The scheduler interleaves the per-layer step sequences of several parts into
a single ordered list of `GlobalLayer`s, by one of three policies
(`kByHeight`, `kByLayerNumber`, `kByPart`), or collects the currently dirty
step pairs into a single incremental `GlobalLayer` (`populateStep`).

The types `Part`, `Step`, `Plane`, `GlobalLayer` and the geometric helpers
(`MathUtils::CreateQuaternion`, `Plane::shiftAlongNormal`, `Plane::isEqual`,
`MathUtils::linePlaneIntersection`) are declared outside the repository slice
under src/, so they are modelled from the spec (marked below).  The
`kByHeight` policy states the precondition that all parts were sliced with
slicing planes sharing one fixed stacking direction; under that precondition
a slicing plane is fully described by its signed offset along the stacking
direction, so planes and plane distances are embedded as rationals measured
along the (rotated) stacking axis, and the pitch/yaw/roll quaternion rotation
of `(0,0,1)` is absorbed into that choice of coordinate.
-/
import Mathlib

namespace ORNL

/-- Modelled from the spec: a `Step` ("one printable layer of one part;
exposes its slicing plane and a layer-height setting").  The slicing plane is
represented by its signed offset along the common stacking direction. -/
structure Step where
  slicingPlane : ℚ
  layerHeight : ℚ
deriving DecidableEq

/-- Modelled from the spec: a `StepPair` carries a reference to a `Step`
(`printing_layer`). -/
structure StepPair where
  printing_layer : Step
deriving DecidableEq

/-- Modelled from the spec: a `Part` has an opaque unique id, an ordered,
index-addressable sequence of step pairs, and a query for dirty step pairs. -/
structure Part where
  id : Nat
  steps : List StepPair
  dirty : List StepPair
deriving DecidableEq

/-- `Part::getId`. -/
def Part.getId (p : Part) : Nat := p.id

/-- `Part::countStepPairs`. -/
def Part.countStepPairs (p : Part) : Nat := p.steps.length

/-- `Part::getDirtyStepPairs`. -/
def Part.getDirtyStepPairs (p : Part) : List StepPair := p.dirty

/-- Modelled from the spec: a `GlobalLayer` owns a sequence index and a
mapping from part id to the step pair contributed by that part, kept here as
an association list in insertion order. -/
structure GlobalLayer where
  seq : Nat
  entries : List (Nat × StepPair)
deriving DecidableEq

/-- Whether the layer already has an entry for part `pid`. -/
def GlobalLayer.hasPart (g : GlobalLayer) (pid : Nat) : Bool :=
  g.entries.any (fun e => e.1 == pid)

/-- Modelled from the spec: `GlobalLayer::addStepPair(partId, stepPair)`
fails (precondition violation) if the part already has an entry in this
layer; otherwise it inserts the pair. -/
def GlobalLayer.addStepPair (g : GlobalLayer) (pid : Nat) (sp : StepPair) :
    Option GlobalLayer :=
  if g.hasPart pid then none
  else some ⟨g.seq, g.entries ++ [(pid, sp)]⟩

/-- The `LayerOrdering` setting read by `populateSteps`.  The enumeration in
the source has the three named members; `unrecognized` stands for any other
underlying value of the setting, which the source answers with
`Q_ASSERT(false)`. -/
inductive LayerOrdering where
  | kByHeight : LayerOrdering
  | kByLayerNumber : LayerOrdering
  | kByPart : LayerOrdering
  | unrecognized : Nat → LayerOrdering
deriving DecidableEq

/-- The global settings consulted by `populateSteps`: the ordering policy,
the grouping tolerance, and the stacking-direction pitch/yaw/roll.  The three
angles only rotate the canonical normal `(0,0,1)`; since plane offsets are
already expressed along the rotated stacking direction, they do not appear in
the computation. -/
structure SettingsBase where
  layerOrdering : LayerOrdering
  layerGroupingTolerance : ℚ
  stackingPitch : ℚ
  stackingYaw : ℚ
  stackingRoll : ℚ

/-- Adding all dirty step pairs of one part to the layer
(inner loop of `populateStep`). -/
def addDirty (pid : Nat) : List StepPair → GlobalLayer → Option GlobalLayer
  | [], g => some g
  | sp :: rest, g =>
    match g.addStepPair pid sp with
    | none => none
    | some g' => addDirty pid rest g'

/-- Outer loop of `populateStep` over the parts. -/
def populateStepAux : List Part → GlobalLayer → Option GlobalLayer
  | [], g => some g
  | p :: rest, g =>
    match addDirty p.getId p.getDirtyStepPairs g with
    | none => none
    | some g' => populateStepAux rest g'

/-- `LayerOrderOptimizer::populateStep`: one `GlobalLayer`, numbered 0,
holding every dirty step pair of every part. -/
def populateStep (build_parts : List Part) : Option GlobalLayer :=
  populateStepAux build_parts ⟨0, []⟩

/-- The layer-centre plane offset used by `kByHeight`: the slicing plane of
the step's printing layer shifted along its normal by half the layer height
(`layer_plane.shiftAlongNormal(layer_height() / 2.0)`), measured along the
stacking direction.  Modelled from the spec: with all planes sharing the
stacking direction, `MathUtils::linePlaneIntersection(origin, slicing_plane,
layer_plane).distance()` is this signed offset. -/
def shiftedDist (sp : StepPair) : ℚ :=
  sp.printing_layer.slicingPlane + sp.printing_layer.layerHeight / 2

/-- Modelled from the spec: `Plane::isEqual` with tolerance, an inclusive
comparison of plane offsets (orientation being shared). -/
def planeIsEqual (a b tol : ℚ) : Bool := decide (|a - b| ≤ tol)

/-- Pointwise update of the cursor map `current_layer`. -/
def updateCur (c : Nat → Nat) (pid v : Nat) : Nat → Nat :=
  fun x => if x = pid then v else c x

/-- The minimum search of the `kByHeight` loop (first inner `for`): scan the
parts, skip exhausted ones, and keep the part/distance of the strictly lowest
shifted plane seen so far (`part_with_min_plane` starts as the null id,
modelled by the `none` accumulator; the null check of the source is the match
on the accumulator). -/
def findMinAux (c : Nat → Nat) : List Part → Option (Nat × ℚ) → Option (Nat × ℚ)
  | [], acc => acc
  | p :: rest, none =>
    if h : c p.getId < p.countStepPairs then
      findMinAux c rest (some (p.getId, shiftedDist p.steps[c p.getId]))
    else findMinAux c rest none
  | p :: rest, some (mid, md) =>
    if h : c p.getId < p.countStepPairs then
      if shiftedDist p.steps[c p.getId] < md then
        findMinAux c rest (some (p.getId, shiftedDist p.steps[c p.getId]))
      else findMinAux c rest (some (mid, md))
    else findMinAux c rest (some (mid, md))

/-- The minimum search, started with the null accumulator. -/
def findMin (parts : List Part) (c : Nat → Nat) : Option (Nat × ℚ) :=
  findMinAux c parts none

/-- The grouping pass of the `kByHeight` loop (second inner `for`): every
part whose current shifted plane equals the minimum plane within tolerance is
added to the new global layer and has its cursor advanced. -/
def groupPass (tol md : ℚ) :
    List Part → GlobalLayer → (Nat → Nat) → Option (GlobalLayer × (Nat → Nat))
  | [], g, c => some (g, c)
  | p :: rest, g, c =>
    if h : c p.getId < p.countStepPairs then
      if planeIsEqual (shiftedDist p.steps[c p.getId]) md tol then
        match g.addStepPair p.getId p.steps[c p.getId] with
        | none => none
        | some g' => groupPass tol md rest g' (updateCur c p.getId (c p.getId + 1))
      else groupPass tol md rest g c
    else groupPass tol md rest g c

/-- The `steps_left` recomputation: some part still has an unscheduled step. -/
def stepsLeft (parts : List Part) (c : Nat → Nat) : Bool :=
  parts.any (fun p => decide (c p.getId < p.countStepPairs))

/-- Total number of steps over all parts. -/
def totalSteps (parts : List Part) : Nat :=
  (parts.map (fun p => p.countStepPairs)).sum

/-- The `while (steps_left)` loop of the `kByHeight` policy, with the Boolean
`steps_left` carried as in the source: it starts `true`, so the body runs at
least once, and it is recomputed from the cursors at the end of each
iteration.  When no part is active the minimum search leaves the null id and
the grouping pass adds nothing (every part fails the cursor check), so the
iteration appends an empty layer, exactly as the source does.  The loop is
fueled; fuel exhaustion (`none`) models non-termination. -/
def byHeightLoop (parts : List Part) (tol : ℚ) :
    Nat → Bool → (Nat → Nat) → Nat → Option (List GlobalLayer)
  | _, false, _, _ => some []
  | 0, true, _, _ => none
  | Nat.succ f, true, c, n =>
    match findMin parts c with
    | none =>
      match byHeightLoop parts tol f (stepsLeft parts c) c (n + 1) with
      | none => none
      | some rest => some (GlobalLayer.mk n [] :: rest)
    | some (_, md) =>
      match groupPass tol md parts (GlobalLayer.mk n []) c with
      | none => none
      | some (g, c') =>
        match byHeightLoop parts tol f (stepsLeft parts c') c' (n + 1) with
        | none => none
        | some rest => some (g :: rest)

/-- The `kByHeight` branch of `populateSteps`.  Each loop iteration with an
active part schedules at least one step when the tolerance is nonnegative, so
`totalSteps parts + 1` units of fuel cover every terminating run. -/
def populateStepsByHeight (tol : ℚ) (parts : List Part) :
    Option (List GlobalLayer) :=
  byHeightLoop parts tol (totalSteps parts + 1) true (fun _ => 0) 0

/-- One layer of the `kByLayerNumber` branch: add step `step` of every part
that has one. -/
def addLayerNumberEntries (step : Nat) :
    List Part → GlobalLayer → Option GlobalLayer
  | [], g => some g
  | p :: rest, g =>
    if h : step < p.countStepPairs then
      match g.addStepPair p.getId p.steps[step] with
      | none => none
      | some g' => addLayerNumberEntries step rest g'
    else addLayerNumberEntries step rest g

/-- The `for (step = 0; step < max_steps; ++step)` loop of `kByLayerNumber`,
recursing on the number of layers still to build. -/
def byLayerNumberAux (parts : List Part) : Nat → Nat → Option (List GlobalLayer)
  | 0, _ => some []
  | Nat.succ r, step =>
    match addLayerNumberEntries step parts ⟨step, []⟩ with
    | none => none
    | some g =>
      match byLayerNumberAux parts r (step + 1) with
      | none => none
      | some rest => some (g :: rest)

/-- `max_steps` of the `kByLayerNumber` branch (`qMax` fold from 0). -/
def maxSteps (parts : List Part) : Nat :=
  parts.foldl (fun a p => max a p.countStepPairs) 0

/-- The `kByLayerNumber` branch of `populateSteps`. -/
def populateStepsByLayerNumber (parts : List Part) : Option (List GlobalLayer) :=
  byLayerNumberAux parts (maxSteps parts) 0

/-- Inner loop of the `kByPart` branch: each step of the part becomes its own
global layer, numbered consecutively from `n`. -/
def byPartSteps (pid : Nat) : List StepPair → Nat → Option (List GlobalLayer)
  | [], _ => some []
  | sp :: more, n =>
    match (GlobalLayer.mk n []).addStepPair pid sp with
    | none => none
    | some g =>
      match byPartSteps pid more (n + 1) with
      | none => none
      | some rest => some (g :: rest)

/-- Outer loop of the `kByPart` branch over the parts, threading the running
global step counter `num_g_steps`. -/
def byPartAux : List Part → Nat → Option (List GlobalLayer)
  | [], _ => some []
  | p :: rest, n =>
    match byPartSteps p.getId p.steps n with
    | none => none
    | some first =>
      match byPartAux rest (n + p.countStepPairs) with
      | none => none
      | some restL => some (first ++ restL)

/-- The `kByPart` branch of `populateSteps`. -/
def populateStepsByPart (parts : List Part) : Option (List GlobalLayer) :=
  byPartAux parts 0

/-- `LayerOrderOptimizer::populateSteps`: dispatch on the layer-ordering
setting; an unrecognized value hits `Q_ASSERT(false)` (a fatal assertion),
modelled as `none`. -/
def populateSteps (global_sb : SettingsBase) (build_parts : List Part) :
    Option (List GlobalLayer) :=
  match global_sb.layerOrdering with
  | .kByHeight => populateStepsByHeight global_sb.layerGroupingTolerance build_parts
  | .kByLayerNumber => populateStepsByLayerNumber build_parts
  | .kByPart => populateStepsByPart build_parts
  | .unrecognized _ => none

/-- The ids of a list of parts, in order. -/
def partIds (parts : List Part) : List Nat := parts.map (fun p => p.id)

/-- The step pairs stored for part id `pid` in an entry list, in order. -/
def keyEntries (pid : Nat) (es : List (Nat × StepPair)) : List StepPair :=
  (es.filter (fun e => e.1 == pid)).map Prod.snd

/-- The step pairs attributed to part id `pid` across a schedule, in layer
order. -/
def partTrace (pid : Nat) (L : List GlobalLayer) : List StepPair :=
  (L.map (fun g => keyEntries pid g.entries)).flatten

/-- Whether two part ids appear together in some layer of a schedule. -/
def sameLayer (L : List GlobalLayer) (a b : Nat) : Bool :=
  L.any (fun g => g.hasPart a && g.hasPart b)

/-- Sum of unscheduled step counts at cursor state `c`. -/
def remaining (parts : List Part) (c : Nat → Nat) : Nat :=
  (parts.map (fun p => p.countStepPairs - c p.id)).sum

/-- The entry contributed by one part to one `kByHeight` grouping pass at
cursor state `c`: its current step pair if the part is active and its shifted
plane matches the minimum within tolerance. -/
def groupContribution (tol md : ℚ) (c : Nat → Nat) (p : Part) :
    Option (Nat × StepPair) :=
  match p.steps[c p.id]? with
  | none => none
  | some sp => if planeIsEqual (shiftedDist sp) md tol then some (p.id, sp) else none

/-- Whether a part is added (and its cursor advanced) in one `kByHeight`
grouping pass at cursor state `c`. -/
def matched (tol md : ℚ) (c : Nat → Nat) (p : Part) : Bool :=
  (groupContribution tol md c p).isSome

/-- The entry contributed by one part to global layer `step` under
`kByLayerNumber`: its step pair at index `step`, if it has one. -/
def layerNumberContribution (step : Nat) (p : Part) : Option (Nat × StepPair) :=
  (p.steps[step]?).map (fun sp => (p.id, sp))

section Helpers

theorem getId_eq (p : Part) : p.getId = p.id := rfl

theorem countStepPairs_eq (p : Part) : p.countStepPairs = p.steps.length := rfl

theorem hasPart_eq_false_iff (g : GlobalLayer) (pid : Nat) :
    g.hasPart pid = false ↔ ∀ e ∈ g.entries, e.1 ≠ pid := by
  simp [GlobalLayer.hasPart]

theorem hasPart_mk_nil (n pid : Nat) : (GlobalLayer.mk n []).hasPart pid = false := rfl

theorem addStepPair_eq_some_iff (g g' : GlobalLayer) (pid : Nat) (sp : StepPair) :
    g.addStepPair pid sp = some g' ↔
      g.hasPart pid = false ∧ g' = ⟨g.seq, g.entries ++ [(pid, sp)]⟩ := by
  unfold GlobalLayer.addStepPair
  rcases h : g.hasPart pid with _ | _ <;> simp [h, eq_comm]

theorem addStepPair_of_hasPart_false (g : GlobalLayer) (pid : Nat) (sp : StepPair)
    (h : g.hasPart pid = false) :
    g.addStepPair pid sp = some ⟨g.seq, g.entries ++ [(pid, sp)]⟩ := by
  unfold GlobalLayer.addStepPair
  simp [h]

theorem addStepPair_keys (g g' : GlobalLayer) (pid : Nat) (sp : StepPair)
    (h : g.addStepPair pid sp = some g')
    (hn : (g.entries.map Prod.fst).Nodup) : (g'.entries.map Prod.fst).Nodup := by
  rcases (addStepPair_eq_some_iff g g' pid sp).1 h with ⟨hfalse, rfl⟩
  rw [hasPart_eq_false_iff] at hfalse
  simp only [List.map_append, List.map_cons, List.map_nil]
  rw [List.nodup_append]
  refine ⟨hn, List.nodup_singleton _, ?_⟩
  intro a ha hb
  simp only [List.mem_singleton] at hb
  subst hb
  rcases List.mem_map.1 ha with ⟨e, he, rfl⟩
  exact hfalse e he rfl

theorem keyEntries_nil (pid : Nat) : keyEntries pid [] = [] := rfl

theorem keyEntries_append (pid : Nat) (a b : List (Nat × StepPair)) :
    keyEntries pid (a ++ b) = keyEntries pid a ++ keyEntries pid b := by
  simp [keyEntries]

theorem keyEntries_singleton_self (pid : Nat) (sp : StepPair) :
    keyEntries pid [(pid, sp)] = [sp] := by
  simp [keyEntries]

theorem keyEntries_singleton_ne (pid q : Nat) (sp : StepPair) (h : q ≠ pid) :
    keyEntries pid [(q, sp)] = [] := by
  simp [keyEntries, h]

theorem partTrace_nil (pid : Nat) : partTrace pid [] = [] := rfl

theorem partTrace_cons (pid : Nat) (g : GlobalLayer) (L : List GlobalLayer) :
    partTrace pid (g :: L) = keyEntries pid g.entries ++ partTrace pid L := by
  simp [partTrace]

theorem partTrace_append (pid : Nat) (L₁ L₂ : List GlobalLayer) :
    partTrace pid (L₁ ++ L₂) = partTrace pid L₁ ++ partTrace pid L₂ := by
  simp [partTrace]

theorem mem_partIds {parts : List Part} {pid : Nat} :
    pid ∈ partIds parts ↔ ∃ p ∈ parts, p.id = pid := by
  simp [partIds]

theorem flatten_map_singleton {α : Type} (l : List α) :
    (l.map (fun a => [a])).flatten = l := by
  induction l with
  | nil => rfl
  | cons a l ih => simp [ih]

theorem flatten_map_nil {α β : Type} (l : List α) :
    (l.map (fun _ => ([] : List β))).flatten = [] := by
  induction l with
  | nil => rfl
  | cons a l ih => simp [ih]

end Helpers

section FilterMapKeys

theorem partIds_cons (p : Part) (rest : List Part) :
    partIds (p :: rest) = p.id :: partIds rest := rfl

/-- Entries produced by a keyed contribution function for an absent id. -/
theorem keyEntries_filterMap_not_mem (parts : List Part)
    (f : Part → Option (Nat × StepPair))
    (hk : ∀ q ∈ parts, ∀ e, f q = some e → e.1 = q.id)
    (pid : Nat) (hpid : pid ∉ partIds parts) :
    keyEntries pid (parts.filterMap f) = [] := by
  induction parts with
  | nil => rfl
  | cons q rest ih =>
    rw [partIds_cons] at hpid
    have hq : q.id ≠ pid := fun h => hpid (h ▸ List.mem_cons_self _ _)
    have hrest : pid ∉ partIds rest := fun h => hpid (List.mem_cons_of_mem _ h)
    have ihr := ih (fun p hp => hk p (List.mem_cons_of_mem _ hp)) hrest
    cases hfq : f q with
    | none => rw [List.filterMap_cons_none hfq]; exact ihr
    | some e =>
      have he : e.1 = q.id := hk q (List.mem_cons_self _ _) e hfq
      rcases e with ⟨a, sp⟩
      have he' : a = q.id := he
      subst he'
      rw [List.filterMap_cons_some hfq,
        show ((q.id, sp) :: List.filterMap f rest) = [(q.id, sp)] ++ List.filterMap f rest from rfl,
        keyEntries_append, keyEntries_singleton_ne pid q.id sp hq, ihr]
      rfl

/-- Entries produced by a keyed contribution function for the id of a member
part, when all ids are distinct: exactly that part's own contribution. -/
theorem keyEntries_filterMap_mem (parts : List Part)
    (f : Part → Option (Nat × StepPair))
    (hk : ∀ q ∈ parts, ∀ e, f q = some e → e.1 = q.id)
    (hids : (partIds parts).Nodup)
    (p : Part) (hp : p ∈ parts) :
    keyEntries p.id (parts.filterMap f) = ((f p).map Prod.snd).toList := by
  induction parts with
  | nil => cases hp
  | cons q rest ih =>
    rw [partIds_cons] at hids
    have hids' : (partIds rest).Nodup := (List.nodup_cons.1 hids).2
    have hqrest : q.id ∉ partIds rest := (List.nodup_cons.1 hids).1
    rcases List.mem_cons.1 hp with rfl | hp'
    · -- p is the head
      have htail : keyEntries p.id (rest.filterMap f) = [] :=
        keyEntries_filterMap_not_mem rest f
          (fun r hr => hk r (List.mem_cons_of_mem _ hr)) p.id hqrest
      cases hfq : f p with
      | none => rw [List.filterMap_cons_none hfq, htail]; rfl
      | some e =>
        have he : e.1 = p.id := hk p (List.mem_cons_self _ _) e hfq
        rcases e with ⟨a, sp⟩
        have he' : a = p.id := he
        subst he'
        rw [List.filterMap_cons_some hfq,
          show ((p.id, sp) :: List.filterMap f rest) = [(p.id, sp)] ++ List.filterMap f rest from rfl,
          keyEntries_append, keyEntries_singleton_self, htail]
        rfl
    · -- p is in the tail
      have hqp : q.id ≠ p.id := by
        intro h
        exact hqrest (h ▸ mem_partIds.2 ⟨p, hp', rfl⟩)
      have ihr := ih (fun r hr => hk r (List.mem_cons_of_mem _ hr)) hids' hp'
      cases hfq : f q with
      | none => rw [List.filterMap_cons_none hfq]; exact ihr
      | some e =>
        have he : e.1 = q.id := hk q (List.mem_cons_self _ _) e hfq
        rcases e with ⟨a, sp⟩
        have he' : a = q.id := he
        subst he'
        rw [List.filterMap_cons_some hfq,
          show ((q.id, sp) :: List.filterMap f rest) = [(q.id, sp)] ++ List.filterMap f rest from rfl,
          keyEntries_append, keyEntries_singleton_ne p.id q.id sp hqp, ihr]
        rfl

theorem groupContribution_key (tol md : ℚ) (c : Nat → Nat) (p : Part) (e : Nat × StepPair)
    (h : groupContribution tol md c p = some e) : e.1 = p.id := by
  unfold groupContribution at h
  split at h
  · cases h
  · split at h
    · cases h
      rfl
    · cases h

theorem layerNumberContribution_key (step : Nat) (p : Part) (e : Nat × StepPair)
    (h : layerNumberContribution step p = some e) : e.1 = p.id := by
  unfold layerNumberContribution at h
  cases hg : p.steps[step]? with
  | none => rw [hg] at h; cases h
  | some sp =>
    rw [hg] at h
    cases h
    rfl

end FilterMapKeys


section StepsLeftFindMin

theorem stepsLeft_eq_false_iff (parts : List Part) (c : Nat → Nat) :
    stepsLeft parts c = false ↔ ∀ p ∈ parts, p.steps.length ≤ c p.id := by
  simp [stepsLeft, Part.getId, Part.countStepPairs]

theorem stepsLeft_eq_true_iff (parts : List Part) (c : Nat → Nat) :
    stepsLeft parts c = true ↔ ∃ p ∈ parts, c p.id < p.steps.length := by
  simp [stepsLeft, Part.getId, Part.countStepPairs]

theorem findMinAux_all_inactive (c : Nat → Nat) (parts : List Part)
    (h : ∀ p ∈ parts, ¬ c p.id < p.steps.length) (acc : Option (Nat × ℚ)) :
    findMinAux c parts acc = acc := by
  induction parts generalizing acc with
  | nil => rfl
  | cons p rest ih =>
    have hp : ¬ c p.getId < p.countStepPairs := h p (List.mem_cons_self _ _)
    have ihr := ih (fun q hq => h q (List.mem_cons_of_mem _ hq))
    rcases acc with _ | ⟨mid, md⟩
    · unfold findMinAux
      rw [dif_neg hp]
      exact ihr none
    · unfold findMinAux
      rw [dif_neg hp]
      exact ihr (some (mid, md))

theorem findMinAux_acc_isSome (c : Nat → Nat) (parts : List Part) (a : Nat × ℚ) :
    (findMinAux c parts (some a)).isSome = true := by
  induction parts generalizing a with
  | nil => rfl
  | cons p rest ih =>
    rcases a with ⟨mid, md⟩
    unfold findMinAux
    by_cases h : c p.getId < p.countStepPairs
    · rw [dif_pos h]
      by_cases hd : shiftedDist p.steps[c p.getId] < md
      · rw [if_pos hd]
        exact ih _
      · rw [if_neg hd]
        exact ih _
    · rw [dif_neg h]
      exact ih _

theorem findMin_isSome_of_stepsLeft (parts : List Part) (c : Nat → Nat)
    (h : stepsLeft parts c = true) : (findMin parts c).isSome = true := by
  rcases (stepsLeft_eq_true_iff parts c).1 h with ⟨p, hp, hactive⟩
  unfold findMin
  clear h
  induction parts with
  | nil => cases hp
  | cons q rest ih =>
    show (findMinAux c (q :: rest) none).isSome = true
    unfold findMinAux
    by_cases hq : c q.getId < q.countStepPairs
    · rw [dif_pos hq]
      exact findMinAux_acc_isSome c rest _
    · rw [dif_neg hq]
      rcases List.mem_cons.1 hp with rfl | hp'
      · exact absurd hactive hq
      · exact ih hp'

theorem findMin_none_all_inactive (parts : List Part) (c : Nat → Nat)
    (h : findMin parts c = none) : ∀ p ∈ parts, ¬ c p.id < p.steps.length := by
  intro p hp hactive
  have := findMin_isSome_of_stepsLeft parts c
    ((stepsLeft_eq_true_iff parts c).2 ⟨p, hp, hactive⟩)
  rw [h] at this
  cases this

theorem findMinAux_min (c : Nat → Nat) (parts : List Part) :
    ∀ (acc : Option (Nat × ℚ)) (mid : Nat) (md : ℚ),
      findMinAux c parts acc = some (mid, md) →
      (∀ p ∈ parts, ∀ (h : c p.id < p.steps.length),
        md ≤ shiftedDist p.steps[c p.id]) ∧
      (∀ a b, acc = some (a, b) → md ≤ b) := by
  induction parts with
  | nil =>
    intro acc mid md heq
    refine ⟨by simp, ?_⟩
    intro a b hab
    rw [hab] at heq
    simp only [findMinAux] at heq
    cases heq
    exact le_refl _
  | cons p rest ih =>
    intro acc mid md heq
    rcases acc with _ | ⟨a, b⟩
    · unfold findMinAux at heq
      by_cases hp : c p.getId < p.countStepPairs
      · rw [dif_pos hp] at heq
        rcases ih _ _ _ heq with ⟨hrest, hacc⟩
        have hple : md ≤ shiftedDist p.steps[c p.getId] := hacc _ _ rfl
        refine ⟨?_, by simp⟩
        intro q hq hact
        rcases List.mem_cons.1 hq with rfl | hq'
        · exact hple
        · exact hrest q hq' hact
      · rw [dif_neg hp] at heq
        rcases ih _ _ _ heq with ⟨hrest, _⟩
        refine ⟨?_, by simp⟩
        intro q hq hact
        rcases List.mem_cons.1 hq with rfl | hq'
        · exact absurd hact hp
        · exact hrest q hq' hact
    · unfold findMinAux at heq
      by_cases hp : c p.getId < p.countStepPairs
      · rw [dif_pos hp] at heq
        by_cases hd : shiftedDist p.steps[c p.getId] < b
        · rw [if_pos hd] at heq
          rcases ih _ _ _ heq with ⟨hrest, hacc⟩
          have hple : md ≤ shiftedDist p.steps[c p.getId] := hacc _ _ rfl
          refine ⟨?_, ?_⟩
          · intro q hq hact
            rcases List.mem_cons.1 hq with rfl | hq'
            · exact hple
            · exact hrest q hq' hact
          · intro x y hxy
            cases hxy
            exact le_of_lt (lt_of_le_of_lt hple hd)
        · rw [if_neg hd] at heq
          rcases ih _ _ _ heq with ⟨hrest, hacc⟩
          have hble : md ≤ b := hacc _ _ rfl
          refine ⟨?_, ?_⟩
          · intro q hq hact
            rcases List.mem_cons.1 hq with rfl | hq'
            · exact le_trans hble (le_of_not_lt hd)
            · exact hrest q hq' hact
          · intro x y hxy
            cases hxy
            exact hble
      · rw [dif_neg hp] at heq
        rcases ih _ _ _ heq with ⟨hrest, hacc⟩
        have hble : md ≤ b := hacc _ _ rfl
        refine ⟨?_, ?_⟩
        · intro q hq hact
          rcases List.mem_cons.1 hq with rfl | hq'
          · exact absurd hact hp
          · exact hrest q hq' hact
        · intro x y hxy
          cases hxy
          exact hble

theorem findMin_min (parts : List Part) (c : Nat → Nat) (mid : Nat) (md : ℚ)
    (h : findMin parts c = some (mid, md)) :
    ∀ p ∈ parts, ∀ (hact : c p.id < p.steps.length),
      md ≤ shiftedDist p.steps[c p.id] :=
  (findMinAux_min c parts none mid md h).1

theorem findMinAux_mem (c : Nat → Nat) (parts : List Part) :
    ∀ (acc : Option (Nat × ℚ)) (mid : Nat) (md : ℚ),
      findMinAux c parts acc = some (mid, md) →
      acc = some (mid, md) ∨
      ∃ p ∈ parts, p.id = mid ∧ ∃ (h : c p.id < p.steps.length),
        shiftedDist p.steps[c p.id] = md := by
  induction parts with
  | nil =>
    intro acc mid md heq
    left
    simpa [findMinAux] using heq
  | cons p rest ih =>
    intro acc mid md heq
    rcases acc with _ | ⟨a, b⟩
    · unfold findMinAux at heq
      by_cases hp : c p.getId < p.countStepPairs
      · rw [dif_pos hp] at heq
        rcases ih _ _ _ heq with hacc | ⟨q, hq, hqid, hqact, hqd⟩
        · right
          have h1 : p.getId = mid ∧ shiftedDist p.steps[c p.getId] = md := by
            have := Option.some.inj hacc
            exact ⟨congrArg Prod.fst this, congrArg Prod.snd this⟩
          exact ⟨p, List.mem_cons_self _ _, h1.1, hp, h1.2⟩
        · exact Or.inr ⟨q, List.mem_cons_of_mem _ hq, hqid, hqact, hqd⟩
      · rw [dif_neg hp] at heq
        rcases ih _ _ _ heq with hacc | ⟨q, hq, hqid, hqact, hqd⟩
        · exact Or.inl hacc
        · exact Or.inr ⟨q, List.mem_cons_of_mem _ hq, hqid, hqact, hqd⟩
    · unfold findMinAux at heq
      by_cases hp : c p.getId < p.countStepPairs
      · rw [dif_pos hp] at heq
        by_cases hd : shiftedDist p.steps[c p.getId] < b
        · rw [if_pos hd] at heq
          rcases ih _ _ _ heq with hacc | ⟨q, hq, hqid, hqact, hqd⟩
          · right
            have h1 : p.getId = mid ∧ shiftedDist p.steps[c p.getId] = md := by
              have := Option.some.inj hacc
              exact ⟨congrArg Prod.fst this, congrArg Prod.snd this⟩
            exact ⟨p, List.mem_cons_self _ _, h1.1, hp, h1.2⟩
          · exact Or.inr ⟨q, List.mem_cons_of_mem _ hq, hqid, hqact, hqd⟩
        · rw [if_neg hd] at heq
          rcases ih _ _ _ heq with hacc | ⟨q, hq, hqid, hqact, hqd⟩
          · exact Or.inl hacc
          · exact Or.inr ⟨q, List.mem_cons_of_mem _ hq, hqid, hqact, hqd⟩
      · rw [dif_neg hp] at heq
        rcases ih _ _ _ heq with hacc | ⟨q, hq, hqid, hqact, hqd⟩
        · exact Or.inl hacc
        · exact Or.inr ⟨q, List.mem_cons_of_mem _ hq, hqid, hqact, hqd⟩

theorem findMin_mem (parts : List Part) (c : Nat → Nat) (mid : Nat) (md : ℚ)
    (h : findMin parts c = some (mid, md)) :
    ∃ p ∈ parts, p.id = mid ∧ ∃ (hact : c p.id < p.steps.length),
      shiftedDist p.steps[c p.id] = md := by
  rcases findMinAux_mem c parts none mid md h with hacc | hmem
  · cases hacc
  · exact hmem

end StepsLeftFindMin

section GroupPass

theorem updateCur_same (c : Nat → Nat) (pid v : Nat) : updateCur c pid v pid = v := by
  simp [updateCur]

theorem updateCur_ne (c : Nat → Nat) (pid v x : Nat) (h : x ≠ pid) :
    updateCur c pid v x = c x := by
  simp [updateCur, h]

theorem hasPart_append_singleton (s : Nat) (es : List (Nat × StepPair))
    (a pid : Nat) (sp : StepPair) :
    (GlobalLayer.mk s (es ++ [(a, sp)])).hasPart pid =
      ((GlobalLayer.mk s es).hasPart pid || (a == pid)) := by
  simp [GlobalLayer.hasPart]

theorem groupContribution_eq_some (tol md : ℚ) (c : Nat → Nat) (p : Part)
    (h : c p.id < p.steps.length)
    (hpe : planeIsEqual (shiftedDist p.steps[c p.id]) md tol = true) :
    groupContribution tol md c p = some (p.id, p.steps[c p.id]) := by
  unfold groupContribution
  rw [List.getElem?_eq_getElem h]
  show (if planeIsEqual (shiftedDist p.steps[c p.id]) md tol then
    some (p.id, p.steps[c p.id]) else none) = some (p.id, p.steps[c p.id])
  rw [if_pos hpe]

theorem groupContribution_eq_none_notmatch (tol md : ℚ) (c : Nat → Nat) (p : Part)
    (h : c p.id < p.steps.length)
    (hpe : planeIsEqual (shiftedDist p.steps[c p.id]) md tol = false) :
    groupContribution tol md c p = none := by
  unfold groupContribution
  rw [List.getElem?_eq_getElem h]
  show (if planeIsEqual (shiftedDist p.steps[c p.id]) md tol then
    some (p.id, p.steps[c p.id]) else none) = none
  rw [if_neg (by simp [hpe])]

theorem groupContribution_eq_none_inactive (tol md : ℚ) (c : Nat → Nat) (p : Part)
    (h : ¬ c p.id < p.steps.length) :
    groupContribution tol md c p = none := by
  unfold groupContribution
  rw [List.getElem?_eq_none (Nat.le_of_not_lt h)]

theorem groupContribution_congr (tol md : ℚ) (c1 c2 : Nat → Nat) (q : Part)
    (h : c1 q.id = c2 q.id) :
    groupContribution tol md c1 q = groupContribution tol md c2 q := by
  unfold groupContribution
  rw [h]

theorem matched_congr (tol md : ℚ) (c1 c2 : Nat → Nat) (q : Part)
    (h : c1 q.id = c2 q.id) : matched tol md c1 q = matched tol md c2 q := by
  unfold matched
  rw [groupContribution_congr tol md c1 c2 q h]

theorem groupPass_nil (tol md : ℚ) (g : GlobalLayer) (c : Nat → Nat) :
    groupPass tol md [] g c = some (g, c) := rfl

theorem groupPass_cons_matched (tol md : ℚ) (p : Part) (rest : List Part)
    (g : GlobalLayer) (c : Nat → Nat)
    (h : c p.id < p.steps.length)
    (hpe : planeIsEqual (shiftedDist p.steps[c p.id]) md tol = true)
    (hhp : g.hasPart p.id = false) :
    groupPass tol md (p :: rest) g c =
      groupPass tol md rest ⟨g.seq, g.entries ++ [(p.id, p.steps[c p.id])]⟩
        (updateCur c p.id (c p.id + 1)) := by
  conv_lhs => unfold groupPass
  simp only [getId_eq, countStepPairs_eq]
  rw [dif_pos h, if_pos hpe, addStepPair_of_hasPart_false _ _ _ hhp]

theorem groupPass_cons_notmatched (tol md : ℚ) (p : Part) (rest : List Part)
    (g : GlobalLayer) (c : Nat → Nat)
    (h : c p.id < p.steps.length)
    (hpe : planeIsEqual (shiftedDist p.steps[c p.id]) md tol = false) :
    groupPass tol md (p :: rest) g c = groupPass tol md rest g c := by
  conv_lhs => unfold groupPass
  simp only [getId_eq, countStepPairs_eq]
  rw [dif_pos h, if_neg (by simp [hpe])]

theorem groupPass_cons_inactive (tol md : ℚ) (p : Part) (rest : List Part)
    (g : GlobalLayer) (c : Nat → Nat)
    (h : ¬ c p.id < p.steps.length) :
    groupPass tol md (p :: rest) g c = groupPass tol md rest g c := by
  conv_lhs => unfold groupPass
  simp only [getId_eq, countStepPairs_eq]
  rw [dif_neg h]

/-- Full characterization of one grouping pass over parts with distinct ids
whose ids are absent from the starting layer: it succeeds, appends exactly
the matching parts' current step pairs in part order, and advances exactly
the matching parts' cursors. -/
theorem groupPass_spec (tol md : ℚ) (parts : List Part) :
    ∀ (g0 : GlobalLayer) (c0 : Nat → Nat),
      (partIds parts).Nodup →
      (∀ p ∈ parts, g0.hasPart p.id = false) →
      ∃ g' c', groupPass tol md parts g0 c0 = some (g', c') ∧
        g'.seq = g0.seq ∧
        g'.entries = g0.entries ++ parts.filterMap (groupContribution tol md c0) ∧
        (∀ x, x ∉ partIds parts → c' x = c0 x) ∧
        (∀ p ∈ parts,
          c' p.id = c0 p.id + (if matched tol md c0 p then 1 else 0)) := by
  induction parts with
  | nil =>
    intro g0 c0 _ _
    exact ⟨g0, c0, groupPass_nil tol md g0 c0, rfl, by simp, fun x _ => rfl, by simp⟩
  | cons p rest ih =>
    intro g0 c0 hids hdisj
    rw [partIds_cons] at hids
    have hprest : p.id ∉ partIds rest := (List.nodup_cons.1 hids).1
    have hids' : (partIds rest).Nodup := (List.nodup_cons.1 hids).2
    have hdisj_p : g0.hasPart p.id = false := hdisj p (List.mem_cons_self _ _)
    by_cases h : c0 p.id < p.steps.length
    · by_cases hpe : planeIsEqual (shiftedDist p.steps[c0 p.id]) md tol = true
      · -- matched: p is added, cursor advances
        set g1 : GlobalLayer := ⟨g0.seq, g0.entries ++ [(p.id, p.steps[c0 p.id])]⟩ with hg1
        set c1 : Nat → Nat := updateCur c0 p.id (c0 p.id + 1) with hc1
        have hdisj' : ∀ q ∈ rest, g1.hasPart q.id = false := by
          intro q hq
          have hqne : p.id ≠ q.id := fun hcontra =>
            hprest (hcontra ▸ mem_partIds.2 ⟨q, hq, rfl⟩)
          rw [hg1]
          rw [show g0 = GlobalLayer.mk g0.seq g0.entries from rfl] at hdisj
          rw [hasPart_append_singleton]
          simp only [Bool.or_eq_false_iff]
          exact ⟨hdisj q (List.mem_cons_of_mem _ hq), by simp [hqne]⟩
        rcases ih g1 c1 hids' hdisj' with ⟨g', c', heq, hseq, hent, hout, hcur⟩
        refine ⟨g', c', ?_, ?_, ?_, ?_, ?_⟩
        · rw [groupPass_cons_matched tol md p rest g0 c0 h hpe hdisj_p, ← hg1, ← hc1]
          exact heq
        · rw [hseq, hg1]
        · rw [hent, hg1]
          have hcongr : rest.filterMap (groupContribution tol md c1) =
              rest.filterMap (groupContribution tol md c0) := by
            apply List.filterMap_congr
            intro q hq
            have hqne : q.id ≠ p.id := fun hcontra =>
              hprest (hcontra ▸ mem_partIds.2 ⟨q, hq, rfl⟩)
            exact groupContribution_congr tol md c1 c0 q (by rw [hc1, updateCur_ne _ _ _ _ hqne])
          rw [hcongr,
            List.filterMap_cons_some (groupContribution_eq_some tol md c0 p h hpe)]
          simp
        · intro x hx
          have hxp : x ≠ p.id := fun hcontra =>
            hx (by rw [partIds_cons, hcontra]; exact List.mem_cons_self _ _)
          have hxrest : x ∉ partIds rest := fun hcontra =>
            hx (by rw [partIds_cons]; exact List.mem_cons_of_mem _ hcontra)
          rw [hout x hxrest, hc1, updateCur_ne _ _ _ _ hxp]
        · intro q hq
          rcases List.mem_cons.1 hq with rfl | hq'
          · rw [hout q.id hprest, hc1, updateCur_same]
            have hm : matched tol md c0 q = true := by
              unfold matched
              rw [groupContribution_eq_some tol md c0 q h hpe]
              rfl
            rw [hm]
            simp
          · rw [hcur q hq']
            have hqne : q.id ≠ p.id := fun hcontra =>
              hprest (hcontra ▸ mem_partIds.2 ⟨q, hq', rfl⟩)
            rw [matched_congr tol md c1 c0 q (by rw [hc1, updateCur_ne _ _ _ _ hqne]),
              hc1, updateCur_ne _ _ _ _ hqne]
      · -- active but not matched: p is skipped
        have hpe' : planeIsEqual (shiftedDist p.steps[c0 p.id]) md tol = false :=
          Bool.eq_false_iff.2 hpe
        have hdisj' : ∀ q ∈ rest, g0.hasPart q.id = false := fun q hq =>
          hdisj q (List.mem_cons_of_mem _ hq)
        rcases ih g0 c0 hids' hdisj' with ⟨g', c', heq, hseq, hent, hout, hcur⟩
        refine ⟨g', c', ?_, hseq, ?_, ?_, ?_⟩
        · rw [groupPass_cons_notmatched tol md p rest g0 c0 h hpe']
          exact heq
        · rw [hent,
            List.filterMap_cons_none (groupContribution_eq_none_notmatch tol md c0 p h hpe')]
        · intro x hx
          exact hout x (fun hcontra =>
            hx (by rw [partIds_cons]; exact List.mem_cons_of_mem _ hcontra))
        · intro q hq
          rcases List.mem_cons.1 hq with rfl | hq'
          · have hm : matched tol md c0 q = false := by
              unfold matched
              rw [groupContribution_eq_none_notmatch tol md c0 q h hpe']
              rfl
            rw [hm, hout q.id hprest]
            simp
          · exact hcur q hq'
    · -- inactive: p is skipped
      have hdisj' : ∀ q ∈ rest, g0.hasPart q.id = false := fun q hq =>
        hdisj q (List.mem_cons_of_mem _ hq)
      rcases ih g0 c0 hids' hdisj' with ⟨g', c', heq, hseq, hent, hout, hcur⟩
      refine ⟨g', c', ?_, hseq, ?_, ?_, ?_⟩
      · rw [groupPass_cons_inactive tol md p rest g0 c0 h]
        exact heq
      · rw [hent,
          List.filterMap_cons_none (groupContribution_eq_none_inactive tol md c0 p h)]
      · intro x hx
        exact hout x (fun hcontra =>
          hx (by rw [partIds_cons]; exact List.mem_cons_of_mem _ hcontra))
      · intro q hq
        rcases List.mem_cons.1 hq with rfl | hq'
        · have hm : matched tol md c0 q = false := by
            unfold matched
            rw [groupContribution_eq_none_inactive tol md c0 q h]
            rfl
          rw [hm, hout q.id hprest]
          simp
        · exact hcur q hq'

/-- The grouping pass preserves distinctness of the part keys of the layer
(no nodup-id assumption on the parts: `addStepPair` itself guards). -/
theorem groupPass_keys (tol md : ℚ) :
    ∀ (parts : List Part) (g : GlobalLayer) (c : Nat → Nat) (g' : GlobalLayer)
      (c' : Nat → Nat),
      groupPass tol md parts g c = some (g', c') →
      (g.entries.map Prod.fst).Nodup → (g'.entries.map Prod.fst).Nodup := by
  intro parts
  induction parts with
  | nil =>
    intro g c g' c' h hn
    rw [groupPass_nil] at h
    obtain ⟨rfl, rfl⟩ : g = g' ∧ c = c' := by simpa using h
    exact hn
  | cons p rest ih =>
    intro g c g' c' h hn
    unfold groupPass at h
    split at h
    · split at h
      · split at h
        · cases h
        · next g2 hg2 => exact ih _ _ _ _ h (addStepPair_keys _ _ _ _ hg2 hn)
      · exact ih _ _ _ _ h hn
    · exact ih _ _ _ _ h hn

end GroupPass

section ByHeightLoop

theorem matched_true_elim (tol md : ℚ) (c : Nat → Nat) (p : Part)
    (hm : matched tol md c p = true) :
    ∃ (h : c p.id < p.steps.length),
      groupContribution tol md c p = some (p.id, p.steps[c p.id]) ∧
      planeIsEqual (shiftedDist p.steps[c p.id]) md tol = true := by
  by_cases h : c p.id < p.steps.length
  · by_cases hpe : planeIsEqual (shiftedDist p.steps[c p.id]) md tol = true
    · exact ⟨h, groupContribution_eq_some tol md c p h hpe, hpe⟩
    · have hc := groupContribution_eq_none_notmatch tol md c p h (Bool.eq_false_iff.2 hpe)
      unfold matched at hm
      rw [hc] at hm
      cases hm
  · have hc := groupContribution_eq_none_inactive tol md c p h
    unfold matched at hm
    rw [hc] at hm
    cases hm

theorem matched_false_elim (tol md : ℚ) (c : Nat → Nat) (p : Part)
    (hm : matched tol md c p = false) : groupContribution tol md c p = none := by
  unfold matched at hm
  cases hgc : groupContribution tol md c p with
  | none => rfl
  | some e =>
    rw [hgc] at hm
    cases hm

theorem matched_true_of_min (tol md : ℚ) (c : Nat → Nat) (p : Part)
    (htol : 0 ≤ tol) (hact : c p.id < p.steps.length)
    (hdist : shiftedDist p.steps[c p.id] = md) : matched tol md c p = true := by
  have hpe : planeIsEqual (shiftedDist p.steps[c p.id]) md tol = true := by
    unfold planeIsEqual
    rw [hdist]
    simpa using htol
  unfold matched
  rw [groupContribution_eq_some tol md c p hact hpe]
  rfl

theorem byHeightLoop_false (parts : List Part) (tol : ℚ) (fuel : Nat)
    (c : Nat → Nat) (n : Nat) : byHeightLoop parts tol fuel false c n = some [] := by
  cases fuel <;> rfl

theorem byHeightLoop_zero_true (parts : List Part) (tol : ℚ)
    (c : Nat → Nat) (n : Nat) : byHeightLoop parts tol 0 true c n = none := rfl

theorem byHeightLoop_succ_of_none (parts : List Part) (tol : ℚ) (f : Nat)
    (c : Nat → Nat) (n : Nat) (rest : List GlobalLayer)
    (hfm : findMin parts c = none)
    (hrec : byHeightLoop parts tol f (stepsLeft parts c) c (n + 1) = some rest) :
    byHeightLoop parts tol (f + 1) true c n = some (GlobalLayer.mk n [] :: rest) := by
  conv_lhs => unfold byHeightLoop
  simp only [hfm, hrec]

theorem byHeightLoop_succ_of_some (parts : List Part) (tol : ℚ) (f : Nat)
    (c : Nat → Nat) (n : Nat) (mid : Nat) (md : ℚ) (g : GlobalLayer)
    (c' : Nat → Nat) (rest : List GlobalLayer)
    (hfm : findMin parts c = some (mid, md))
    (hgp : groupPass tol md parts (GlobalLayer.mk n []) c = some (g, c'))
    (hrec : byHeightLoop parts tol f (stepsLeft parts c') c' (n + 1) = some rest) :
    byHeightLoop parts tol (f + 1) true c n = some (g :: rest) := by
  conv_lhs => unfold byHeightLoop
  simp only [hfm, hgp, hrec]

theorem remaining_zero_cursor (parts : List Part) :
    remaining parts (fun _ => 0) = totalSteps parts := by
  simp [remaining, totalSteps]

theorem remaining_lt_of_advance (parts : List Part) (c c' : Nat → Nat)
    (hmono : ∀ p ∈ parts, c p.id ≤ c' p.id)
    (pm : Part) (hpm : pm ∈ parts)
    (hact : c pm.id < pm.steps.length)
    (hadv : c' pm.id = c pm.id + 1) :
    remaining parts c' < remaining parts c := by
  unfold remaining
  apply List.sum_lt_sum
  · intro p hp
    have := hmono p hp
    simp only [countStepPairs_eq]
    omega
  · refine ⟨pm, hpm, ?_⟩
    simp only [countStepPairs_eq]
    omega

/-- With pairwise-distinct part ids and nonnegative tolerance, the fueled
`kByHeight` loop succeeds whenever the fuel exceeds the number of
unscheduled steps: each iteration advances at least the minimum part. -/
theorem byHeightLoop_success (tol : ℚ) (parts : List Part)
    (hids : (partIds parts).Nodup) (htol : 0 ≤ tol) :
    ∀ (fuel : Nat) (c : Nat → Nat) (n : Nat),
      remaining parts c < fuel →
      ∃ L, byHeightLoop parts tol fuel true c n = some L := by
  intro fuel
  induction fuel with
  | zero =>
    intro c n hrem
    omega
  | succ f ih =>
    intro c n hrem
    cases hfm : findMin parts c with
    | none =>
      have hsl : stepsLeft parts c = false := by
        rw [stepsLeft_eq_false_iff]
        intro p hp
        exact Nat.le_of_not_lt (findMin_none_all_inactive parts c hfm p hp)
      refine ⟨GlobalLayer.mk n [] :: [], byHeightLoop_succ_of_none parts tol f c n [] hfm ?_⟩
      rw [hsl]
      exact byHeightLoop_false parts tol f c (n + 1)
    | some pr =>
      rcases pr with ⟨mid, md⟩
      obtain ⟨pm, hpm, hpmid, hact, hdist⟩ := findMin_mem parts c mid md hfm
      obtain ⟨g, c', heq, hseq, hent, hout, hcur⟩ :=
        groupPass_spec tol md parts (GlobalLayer.mk n []) c hids
          (fun p _ => hasPart_mk_nil n p.id)
      have hm : matched tol md c pm = true := matched_true_of_min tol md c pm htol hact hdist
      have hadv : c' pm.id = c pm.id + 1 := by
        rw [hcur pm hpm, hm]
        simp
      have hmono : ∀ p ∈ parts, c p.id ≤ c' p.id := by
        intro p hp
        rw [hcur p hp]
        split <;> omega
      have hlt : remaining parts c' < remaining parts c :=
        remaining_lt_of_advance parts c c' hmono pm hpm hact hadv
      have hrec : ∃ L', byHeightLoop parts tol f (stepsLeft parts c') c' (n + 1) = some L' := by
        cases hsl' : stepsLeft parts c' with
        | false => exact ⟨[], byHeightLoop_false parts tol f c' (n + 1)⟩
        | true =>
          obtain ⟨L', hL'⟩ := ih c' (n + 1) (by omega)
          exact ⟨L', hL'⟩
      obtain ⟨L', hL'⟩ := hrec
      exact ⟨g :: L', byHeightLoop_succ_of_some parts tol f c n mid md g c' L' hfm heq hL'⟩

/-- The schedule produced by the fueled `kByHeight` loop attributes to every
part exactly its unscheduled suffix of steps, in order; ids not belonging to
any part never occur. -/
theorem byHeightLoop_trace (tol : ℚ) (parts : List Part)
    (hids : (partIds parts).Nodup) :
    ∀ (fuel : Nat) (flag : Bool) (c : Nat → Nat) (n : Nat) (L : List GlobalLayer),
      byHeightLoop parts tol fuel flag c n = some L →
      (∀ p ∈ parts,
        partTrace p.id L = (if flag = true then p.steps.drop (c p.id) else [])) ∧
      (∀ pid, pid ∉ partIds parts → partTrace pid L = []) := by
  intro fuel
  induction fuel with
  | zero =>
    intro flag c n L h
    cases flag with
    | false =>
      rw [byHeightLoop_false] at h
      obtain rfl : ([] : List GlobalLayer) = L := Option.some.inj h
      exact ⟨fun p _ => by simp [partTrace_nil], fun pid _ => partTrace_nil pid⟩
    | true =>
      rw [byHeightLoop_zero_true] at h
      cases h
  | succ f ih =>
    intro flag c n L h
    cases flag with
    | false =>
      rw [byHeightLoop_false] at h
      obtain rfl : ([] : List GlobalLayer) = L := Option.some.inj h
      exact ⟨fun p _ => by simp [partTrace_nil], fun pid _ => partTrace_nil pid⟩
    | true =>
      cases hfm : findMin parts c with
      | none =>
        have hsl : stepsLeft parts c = false := by
          rw [stepsLeft_eq_false_iff]
          exact fun p hp => Nat.le_of_not_lt (findMin_none_all_inactive parts c hfm p hp)
        have hLeq : byHeightLoop parts tol (f + 1) true c n = some [GlobalLayer.mk n []] := by
          apply byHeightLoop_succ_of_none parts tol f c n [] hfm
          rw [hsl]
          exact byHeightLoop_false parts tol f c (n + 1)
        rw [hLeq] at h
        obtain rfl : [GlobalLayer.mk n []] = L := Option.some.inj h
        constructor
        · intro p hp
          have hinact := (stepsLeft_eq_false_iff parts c).1 hsl p hp
          rw [if_pos rfl, partTrace_cons, partTrace_nil, List.drop_eq_nil_of_le hinact]
          simp [keyEntries_nil]
        · intro pid _
          rw [partTrace_cons, partTrace_nil]
          simp [keyEntries_nil]
      | some pr =>
        rcases pr with ⟨mid, md⟩
        obtain ⟨g2, c2, heq, hseq, hent, hout, hcur⟩ :=
          groupPass_spec tol md parts (GlobalLayer.mk n []) c hids
            (fun p _ => hasPart_mk_nil n p.id)
        cases hrec : byHeightLoop parts tol f (stepsLeft parts c2) c2 (n + 1) with
        | none =>
          have hnone : byHeightLoop parts tol (f + 1) true c n = none := by
            conv_lhs => unfold byHeightLoop
            simp only [hfm, heq, hrec]
          rw [hnone] at h
          cases h
        | some rest =>
          have hLeq : byHeightLoop parts tol (f + 1) true c n = some (g2 :: rest) :=
            byHeightLoop_succ_of_some parts tol f c n mid md g2 c2 rest hfm heq hrec
          rw [hLeq] at h
          obtain rfl : g2 :: rest = L := Option.some.inj h
          have hrest_trace := ih (stepsLeft parts c2) c2 (n + 1) rest hrec
          have htr : ∀ p ∈ parts, partTrace p.id rest = p.steps.drop (c2 p.id) := by
            intro p hp
            cases hsl2 : stepsLeft parts c2 with
            | true =>
              have htmp := hrest_trace.1 p hp
              rw [hsl2] at htmp
              simpa using htmp
            | false =>
              have htmp := hrest_trace.1 p hp
              rw [hsl2] at htmp
              simp at htmp
              rw [htmp]
              symm
              exact List.drop_eq_nil_of_le ((stepsLeft_eq_false_iff parts c2).1 hsl2 p hp)
          have hent' : g2.entries = parts.filterMap (groupContribution tol md c) := by
            simpa using hent
          constructor
          · intro p hp
            rw [if_pos rfl, partTrace_cons, htr p hp, hent',
              keyEntries_filterMap_mem parts _ (fun q _ => groupContribution_key tol md c q) hids p hp]
            cases hm : matched tol md c p with
            | true =>
              obtain ⟨hact, hgc, _hpe⟩ := matched_true_elim tol md c p hm
              have hc2 : c2 p.id = c p.id + 1 := by
                rw [hcur p hp, hm]
                simp
              rw [hgc, hc2, List.drop_eq_getElem_cons hact]
              simp
            | false =>
              have hgc := matched_false_elim tol md c p hm
              have hc2 : c2 p.id = c p.id := by
                rw [hcur p hp, hm]
                simp
              rw [hgc, hc2]
              simp
          · intro pid hpid
            rw [partTrace_cons, hent',
              keyEntries_filterMap_not_mem parts _ (fun q _ => groupContribution_key tol md c q) pid hpid,
              hrest_trace.2 pid hpid]
            rfl

theorem planeIsEqual_true_iff (a b tol : ℚ) :
    planeIsEqual a b tol = true ↔ |a - b| ≤ tol := by
  simp [planeIsEqual]

theorem groupContribution_elim (tol md : ℚ) (c : Nat → Nat) (q : Part)
    (e : Nat × StepPair) (h : groupContribution tol md c q = some e) :
    ∃ (hact : c q.id < q.steps.length),
      e = (q.id, q.steps[c q.id]) ∧
      planeIsEqual (shiftedDist q.steps[c q.id]) md tol = true := by
  by_cases hact : c q.id < q.steps.length
  · by_cases hpe : planeIsEqual (shiftedDist q.steps[c q.id]) md tol = true
    · rw [groupContribution_eq_some tol md c q hact hpe] at h
      exact ⟨hact, (Option.some.inj h).symm, hpe⟩
    · rw [groupContribution_eq_none_notmatch tol md c q hact (Bool.eq_false_iff.2 hpe)] at h
      cases h
  · rw [groupContribution_eq_none_inactive tol md c q hact] at h
    cases h

theorem within_tol (d1 d2 md tol : ℚ) (h1 : md ≤ d1) (h2 : |d1 - md| ≤ tol)
    (h3 : md ≤ d2) (h4 : |d2 - md| ≤ tol) : |d1 - d2| ≤ tol := by
  have h2' := (abs_le.1 h2).2
  have h4' := (abs_le.1 h4).2
  exact abs_le.2 ⟨by linarith, by linarith⟩

/-- Every layer of a `kByHeight` schedule has pairwise-distinct part keys
(no assumptions needed: `addStepPair` guards duplicates). -/
theorem byHeightLoop_keys (tol : ℚ) (parts : List Part) :
    ∀ (fuel : Nat) (flag : Bool) (c : Nat → Nat) (n : Nat) (L : List GlobalLayer),
      byHeightLoop parts tol fuel flag c n = some L →
      ∀ g ∈ L, (g.entries.map Prod.fst).Nodup := by
  intro fuel
  induction fuel with
  | zero =>
    intro flag c n L h g hg
    cases flag with
    | false =>
      rw [byHeightLoop_false] at h
      obtain rfl : ([] : List GlobalLayer) = L := Option.some.inj h
      cases hg
    | true =>
      rw [byHeightLoop_zero_true] at h
      cases h
  | succ f ih =>
    intro flag c n L h g hg
    cases flag with
    | false =>
      rw [byHeightLoop_false] at h
      obtain rfl : ([] : List GlobalLayer) = L := Option.some.inj h
      cases hg
    | true =>
      unfold byHeightLoop at h
      split at h
      · split at h
        · cases h
        · next rest hrest =>
          cases h
          rcases List.mem_cons.1 hg with rfl | hg'
          · simp
          · exact ih _ _ _ _ hrest g hg'
      · next mn md hfm =>
        split at h
        · cases h
        · next g2 c2 hgp =>
          split at h
          · cases h
          · next rest hrest =>
            cases h
            rcases List.mem_cons.1 hg with rfl | hg'
            · exact groupPass_keys tol md parts _ _ _ _ hgp (by simp)
            · exact ih _ _ _ _ hrest g hg'

/-- Once an iteration of the `kByHeight` loop starts with at least one
unscheduled step, every layer it ever produces is non-empty: the minimum part
always matches itself when the tolerance is nonnegative. -/
theorem byHeightLoop_nonempty (tol : ℚ) (parts : List Part)
    (hids : (partIds parts).Nodup) (htol : 0 ≤ tol) :
    ∀ (fuel : Nat) (c : Nat → Nat) (n : Nat) (L : List GlobalLayer),
      stepsLeft parts c = true →
      byHeightLoop parts tol fuel true c n = some L →
      ∀ g ∈ L, g.entries ≠ [] := by
  intro fuel
  induction fuel with
  | zero =>
    intro c n L _ h
    rw [byHeightLoop_zero_true] at h
    cases h
  | succ f ih =>
    intro c n L hsl h g hg
    have hfms := findMin_isSome_of_stepsLeft parts c hsl
    cases hfm : findMin parts c with
    | none =>
      rw [hfm] at hfms
      cases hfms
    | some pr =>
      rcases pr with ⟨mid, md⟩
      obtain ⟨pm, hpm, hpmid, hact, hdist⟩ := findMin_mem parts c mid md hfm
      obtain ⟨g2, c2, heq, hseq, hent, hout, hcur⟩ :=
        groupPass_spec tol md parts (GlobalLayer.mk n []) c hids
          (fun p _ => hasPart_mk_nil n p.id)
      cases hrec : byHeightLoop parts tol f (stepsLeft parts c2) c2 (n + 1) with
      | none =>
        have hnone : byHeightLoop parts tol (f + 1) true c n = none := by
          conv_lhs => unfold byHeightLoop
          simp only [hfm, heq, hrec]
        rw [hnone] at h
        cases h
      | some rest =>
        have hLeq : byHeightLoop parts tol (f + 1) true c n = some (g2 :: rest) :=
          byHeightLoop_succ_of_some parts tol f c n mid md g2 c2 rest hfm heq hrec
        rw [hLeq] at h
        obtain rfl : g2 :: rest = L := Option.some.inj h
        rcases List.mem_cons.1 hg with rfl | hg'
        · have hm : matched tol md c pm = true :=
            matched_true_of_min tol md c pm htol hact hdist
          obtain ⟨hact', hgc, _⟩ := matched_true_elim tol md c pm hm
          have hent' : g.entries = parts.filterMap (groupContribution tol md c) := by
            simpa using hent
          intro hcontra
          have hmem : (pm.id, pm.steps[c pm.id]) ∈
              parts.filterMap (groupContribution tol md c) :=
            List.mem_filterMap.2 ⟨pm, hpm, hgc⟩
          rw [← hent', hcontra] at hmem
          cases hmem
        · cases hsl2 : stepsLeft parts c2 with
          | false =>
            rw [hsl2, byHeightLoop_false] at hrec
            obtain rfl : ([] : List GlobalLayer) = rest := Option.some.inj hrec
            cases hg'
          | true =>
            rw [hsl2] at hrec
            exact ih c2 (n + 1) rest hsl2 hrec g hg'

/-- Any two entries of one layer of a `kByHeight` schedule have shifted-plane
distances within the grouping tolerance of each other: both matched the
iteration's minimum, and no active distance is below the minimum. -/
theorem byHeightLoop_tol (tol : ℚ) (parts : List Part)
    (hids : (partIds parts).Nodup) :
    ∀ (fuel : Nat) (flag : Bool) (c : Nat → Nat) (n : Nat) (L : List GlobalLayer),
      byHeightLoop parts tol fuel flag c n = some L →
      ∀ g ∈ L, ∀ e1 ∈ g.entries, ∀ e2 ∈ g.entries,
        |shiftedDist e1.2 - shiftedDist e2.2| ≤ tol := by
  intro fuel
  induction fuel with
  | zero =>
    intro flag c n L h g hg
    cases flag with
    | false =>
      rw [byHeightLoop_false] at h
      obtain rfl : ([] : List GlobalLayer) = L := Option.some.inj h
      cases hg
    | true =>
      rw [byHeightLoop_zero_true] at h
      cases h
  | succ f ih =>
    intro flag c n L h g hg
    cases flag with
    | false =>
      rw [byHeightLoop_false] at h
      obtain rfl : ([] : List GlobalLayer) = L := Option.some.inj h
      cases hg
    | true =>
      cases hfm : findMin parts c with
      | none =>
        have hsl : stepsLeft parts c = false := by
          rw [stepsLeft_eq_false_iff]
          exact fun p hp => Nat.le_of_not_lt (findMin_none_all_inactive parts c hfm p hp)
        have hLeq : byHeightLoop parts tol (f + 1) true c n = some [GlobalLayer.mk n []] := by
          apply byHeightLoop_succ_of_none parts tol f c n [] hfm
          rw [hsl]
          exact byHeightLoop_false parts tol f c (n + 1)
        rw [hLeq] at h
        obtain rfl : [GlobalLayer.mk n []] = L := Option.some.inj h
        rcases List.mem_cons.1 hg with rfl | hg'
        · intro e1 he1
          cases he1
        · cases hg'
      | some pr =>
        rcases pr with ⟨mid, md⟩
        obtain ⟨g2, c2, heq, hseq, hent, hout, hcur⟩ :=
          groupPass_spec tol md parts (GlobalLayer.mk n []) c hids
            (fun p _ => hasPart_mk_nil n p.id)
        cases hrec : byHeightLoop parts tol f (stepsLeft parts c2) c2 (n + 1) with
        | none =>
          have hnone : byHeightLoop parts tol (f + 1) true c n = none := by
            conv_lhs => unfold byHeightLoop
            simp only [hfm, heq, hrec]
          rw [hnone] at h
          cases h
        | some rest =>
          have hLeq : byHeightLoop parts tol (f + 1) true c n = some (g2 :: rest) :=
            byHeightLoop_succ_of_some parts tol f c n mid md g2 c2 rest hfm heq hrec
          rw [hLeq] at h
          obtain rfl : g2 :: rest = L := Option.some.inj h
          rcases List.mem_cons.1 hg with rfl | hg'
          · intro e1 he1 e2 he2
            have hent' : g.entries = parts.filterMap (groupContribution tol md c) := by
              simpa using hent
            rw [hent'] at he1 he2
            obtain ⟨q1, hq1, hc1⟩ := List.mem_filterMap.1 he1
            obtain ⟨q2, hq2, hc2⟩ := List.mem_filterMap.1 he2
            obtain ⟨ha1, he1eq, hpe1⟩ := groupContribution_elim tol md c q1 e1 hc1
            obtain ⟨ha2, he2eq, hpe2⟩ := groupContribution_elim tol md c q2 e2 hc2
            have hd1 : shiftedDist e1.2 = shiftedDist q1.steps[c q1.id] := by
              rw [he1eq]
            have hd2 : shiftedDist e2.2 = shiftedDist q2.steps[c q2.id] := by
              rw [he2eq]
            rw [hd1, hd2]
            exact within_tol _ _ md tol
              (findMin_min parts c mid md hfm q1 hq1 ha1)
              ((planeIsEqual_true_iff _ _ _).1 hpe1)
              (findMin_min parts c mid md hfm q2 hq2 ha2)
              ((planeIsEqual_true_iff _ _ _).1 hpe2)
          · exact ih _ _ _ _ hrec g hg'

end ByHeightLoop

section ByLayerNumber

theorem layerNumberContribution_eq_some (step : Nat) (p : Part)
    (h : step < p.steps.length) :
    layerNumberContribution step p = some (p.id, p.steps[step]) := by
  unfold layerNumberContribution
  rw [List.getElem?_eq_getElem h]
  rfl

theorem layerNumberContribution_eq_none (step : Nat) (p : Part)
    (h : ¬ step < p.steps.length) :
    layerNumberContribution step p = none := by
  unfold layerNumberContribution
  rw [List.getElem?_eq_none (Nat.le_of_not_lt h)]
  rfl

theorem addLayerNumberEntries_nil (step : Nat) (g : GlobalLayer) :
    addLayerNumberEntries step [] g = some g := rfl

theorem addLayerNumberEntries_cons_active (step : Nat) (p : Part)
    (rest : List Part) (g : GlobalLayer) (h : step < p.steps.length)
    (hhp : g.hasPart p.id = false) :
    addLayerNumberEntries step (p :: rest) g =
      addLayerNumberEntries step rest ⟨g.seq, g.entries ++ [(p.id, p.steps[step])]⟩ := by
  conv_lhs => unfold addLayerNumberEntries
  simp only [getId_eq, countStepPairs_eq]
  rw [dif_pos h, addStepPair_of_hasPart_false _ _ _ hhp]

theorem addLayerNumberEntries_cons_inactive (step : Nat) (p : Part)
    (rest : List Part) (g : GlobalLayer) (h : ¬ step < p.steps.length) :
    addLayerNumberEntries step (p :: rest) g = addLayerNumberEntries step rest g := by
  conv_lhs => unfold addLayerNumberEntries
  simp only [getId_eq, countStepPairs_eq]
  rw [dif_neg h]

theorem addLayerNumberEntries_spec (step : Nat) (parts : List Part) :
    ∀ (g0 : GlobalLayer),
      (partIds parts).Nodup →
      (∀ p ∈ parts, g0.hasPart p.id = false) →
      addLayerNumberEntries step parts g0 =
        some ⟨g0.seq, g0.entries ++ parts.filterMap (layerNumberContribution step)⟩ := by
  induction parts with
  | nil =>
    intro g0 _ _
    rw [addLayerNumberEntries_nil]
    simp
  | cons p rest ih =>
    intro g0 hids hdisj
    rw [partIds_cons] at hids
    have hprest : p.id ∉ partIds rest := (List.nodup_cons.1 hids).1
    have hids' : (partIds rest).Nodup := (List.nodup_cons.1 hids).2
    have hdisj_p : g0.hasPart p.id = false := hdisj p (List.mem_cons_self _ _)
    by_cases h : step < p.steps.length
    · rw [addLayerNumberEntries_cons_active step p rest g0 h hdisj_p]
      have hdisj' : ∀ q ∈ rest,
          (GlobalLayer.mk g0.seq (g0.entries ++ [(p.id, p.steps[step])])).hasPart q.id = false := by
        intro q hq
        have hqne : p.id ≠ q.id := fun hcontra =>
          hprest (hcontra ▸ mem_partIds.2 ⟨q, hq, rfl⟩)
        rw [show g0 = GlobalLayer.mk g0.seq g0.entries from rfl] at hdisj
        rw [hasPart_append_singleton]
        simp only [Bool.or_eq_false_iff]
        exact ⟨hdisj q (List.mem_cons_of_mem _ hq), by simp [hqne]⟩
      rw [ih _ hids' hdisj',
        List.filterMap_cons_some (layerNumberContribution_eq_some step p h)]
      simp
    · rw [addLayerNumberEntries_cons_inactive step p rest g0 h,
        ih g0 hids' (fun q hq => hdisj q (List.mem_cons_of_mem _ hq)),
        List.filterMap_cons_none (layerNumberContribution_eq_none step p h)]

theorem addLayerNumberEntries_keys (step : Nat) :
    ∀ (parts : List Part) (g g' : GlobalLayer),
      addLayerNumberEntries step parts g = some g' →
      (g.entries.map Prod.fst).Nodup → (g'.entries.map Prod.fst).Nodup := by
  intro parts
  induction parts with
  | nil =>
    intro g g' h hn
    rw [addLayerNumberEntries_nil] at h
    obtain rfl : g = g' := Option.some.inj h
    exact hn
  | cons p rest ih =>
    intro g g' h hn
    unfold addLayerNumberEntries at h
    split at h
    · split at h
      · cases h
      · next g2 hg2 => exact ih _ _ h (addStepPair_keys _ _ _ _ hg2 hn)
    · exact ih _ _ h hn

theorem byLayerNumberAux_succ (parts : List Part) (r s : Nat) (g : GlobalLayer)
    (L' : List GlobalLayer)
    (hadd : addLayerNumberEntries s parts ⟨s, []⟩ = some g)
    (hrec : byLayerNumberAux parts r (s + 1) = some L') :
    byLayerNumberAux parts (r + 1) s = some (g :: L') := by
  conv_lhs => unfold byLayerNumberAux
  simp only [hadd, hrec]

/-- With distinct ids, `kByLayerNumber` builds exactly the layers
`s, s+1, …` whose layer `i` holds each part's step `i` (if present). -/
theorem byLayerNumberAux_spec (parts : List Part)
    (hids : (partIds parts).Nodup) :
    ∀ (r s : Nat), ∃ L, byLayerNumberAux parts r s = some L ∧ L.length = r ∧
      ∀ (i : Nat) (hi : i < L.length),
        L[i] = ⟨s + i, parts.filterMap (layerNumberContribution (s + i))⟩ := by
  intro r
  induction r with
  | zero =>
    intro s
    exact ⟨[], rfl, rfl, fun i hi => absurd hi (by simp)⟩
  | succ r ih =>
    intro s
    obtain ⟨L', hL', hlen, hget⟩ := ih (s + 1)
    have hadd : addLayerNumberEntries s parts ⟨s, []⟩ =
        some ⟨s, parts.filterMap (layerNumberContribution s)⟩ := by
      simpa using addLayerNumberEntries_spec s parts ⟨s, []⟩ hids
        (fun p _ => hasPart_mk_nil s p.id)
    refine ⟨_ :: L', byLayerNumberAux_succ parts r s _ L' hadd hL', by simp [hlen], ?_⟩
    intro i hi
    cases i with
    | zero => simp
    | succ j =>
      have hj : j < L'.length := by
        simp at hi
        omega
      have harith : s + 1 + j = s + (j + 1) := by omega
      have := hget j hj
      rw [harith] at this
      simpa using this

theorem byLayerNumberAux_trace (parts : List Part)
    (hids : (partIds parts).Nodup) :
    ∀ (r s : Nat) (L : List GlobalLayer),
      byLayerNumberAux parts r s = some L →
      (∀ p ∈ parts, partTrace p.id L = (p.steps.drop s).take r) ∧
      (∀ pid, pid ∉ partIds parts → partTrace pid L = []) := by
  intro r
  induction r with
  | zero =>
    intro s L h
    obtain rfl : ([] : List GlobalLayer) = L := Option.some.inj h
    exact ⟨fun p _ => by simp [partTrace_nil], fun pid _ => partTrace_nil pid⟩
  | succ r ih =>
    intro s L h
    unfold byLayerNumberAux at h
    split at h
    · cases h
    · next g hadd =>
      split at h
      · cases h
      · next L' hrec =>
        cases h
        have hspec : addLayerNumberEntries s parts ⟨s, []⟩ =
            some ⟨s, parts.filterMap (layerNumberContribution s)⟩ := by
          simpa using addLayerNumberEntries_spec s parts ⟨s, []⟩ hids
            (fun p _ => hasPart_mk_nil s p.id)
        rw [hspec] at hadd
        obtain rfl : (⟨s, parts.filterMap (layerNumberContribution s)⟩ : GlobalLayer) = g :=
          Option.some.inj hadd
        constructor
        · intro p hp
          rw [partTrace_cons]
          rw [show GlobalLayer.entries ⟨s, parts.filterMap (layerNumberContribution s)⟩ =
              parts.filterMap (layerNumberContribution s) from rfl]
          rw [keyEntries_filterMap_mem parts _
              (fun q _ => layerNumberContribution_key s q) hids p hp,
            (ih (s + 1) L' hrec).1 p hp]
          by_cases hs : s < p.steps.length
          · rw [layerNumberContribution_eq_some s p hs, List.drop_eq_getElem_cons hs,
              List.take_succ_cons]
            simp
          · rw [layerNumberContribution_eq_none s p hs]
            have h1 : p.steps.drop s = [] := List.drop_eq_nil_of_le (Nat.le_of_not_lt hs)
            have h2 : p.steps.drop (s + 1) = [] := List.drop_eq_nil_of_le (by
              have := Nat.le_of_not_lt hs
              omega)
            rw [h1, h2]
            simp
        · intro pid hpid
          rw [partTrace_cons,
            show GlobalLayer.entries ⟨s, parts.filterMap (layerNumberContribution s)⟩ =
              parts.filterMap (layerNumberContribution s) from rfl,
            keyEntries_filterMap_not_mem parts _
              (fun q _ => layerNumberContribution_key s q) pid hpid,
            (ih (s + 1) L' hrec).2 pid hpid]
          rfl

theorem byLayerNumberAux_keys (parts : List Part) :
    ∀ (r s : Nat) (L : List GlobalLayer),
      byLayerNumberAux parts r s = some L →
      ∀ g ∈ L, (g.entries.map Prod.fst).Nodup := by
  intro r
  induction r with
  | zero =>
    intro s L h g hg
    obtain rfl : ([] : List GlobalLayer) = L := Option.some.inj h
    cases hg
  | succ r ih =>
    intro s L h g hg
    unfold byLayerNumberAux at h
    split at h
    · cases h
    · next g1 hadd =>
      split at h
      · cases h
      · next L' hrec =>
        cases h
        rcases List.mem_cons.1 hg with rfl | hg'
        · exact addLayerNumberEntries_keys s parts _ _ hadd (by simp)
        · exact ih _ _ hrec g hg'

theorem le_foldl_max (parts : List Part) :
    ∀ (a : Nat), a ≤ parts.foldl (fun x p => max x p.countStepPairs) a := by
  induction parts with
  | nil => intro a; exact Nat.le_refl a
  | cons p rest ih =>
    intro a
    calc a ≤ max a p.countStepPairs := Nat.le_max_left _ _
    _ ≤ rest.foldl (fun x q => max x q.countStepPairs) (max a p.countStepPairs) := ih _

theorem le_maxSteps (parts : List Part) (p : Part) (hp : p ∈ parts) :
    p.steps.length ≤ maxSteps parts := by
  unfold maxSteps
  rw [← countStepPairs_eq]
  generalize (0 : Nat) = a
  induction parts generalizing a with
  | nil => cases hp
  | cons q rest ih =>
    rcases List.mem_cons.1 hp with rfl | hp'
    · calc p.countStepPairs ≤ max a p.countStepPairs := Nat.le_max_right _ _
      _ ≤ rest.foldl (fun x r => max x r.countStepPairs) (max a p.countStepPairs) :=
        le_foldl_max rest _
    · exact ih hp' _

end ByLayerNumber

section ByPart

theorem range'_append_one : ∀ (m s n : Nat),
    List.range' s m ++ List.range' (s + m) n = List.range' s (m + n) := by
  intro m
  induction m with
  | zero =>
    intro s n
    simp
  | succ m ih =>
    intro s n
    rw [List.range'_succ, show m + 1 + n = (m + n) + 1 from by omega, List.range'_succ,
      List.cons_append]
    congr 1
    rw [show s + (m + 1) = (s + 1) + m from by omega]
    exact ih (s + 1) n

theorem byPartSteps_cons (pid : Nat) (sp : StepPair) (more : List StepPair)
    (n : Nat) (L' : List GlobalLayer)
    (hrec : byPartSteps pid more (n + 1) = some L') :
    byPartSteps pid (sp :: more) n = some (⟨n, [(pid, sp)]⟩ :: L') := by
  conv_lhs => unfold byPartSteps
  simp only [addStepPair_of_hasPart_false (GlobalLayer.mk n []) pid sp
    (hasPart_mk_nil n pid), hrec]
  rfl

theorem byPartSteps_spec (pid : Nat) :
    ∀ (steps : List StepPair) (n : Nat),
      ∃ L, byPartSteps pid steps n = some L ∧
        L.map GlobalLayer.entries = steps.map (fun sp => [(pid, sp)]) ∧
        L.map GlobalLayer.seq = List.range' n steps.length := by
  intro steps
  induction steps with
  | nil => exact fun n => ⟨[], rfl, rfl, rfl⟩
  | cons sp more ih =>
    intro n
    obtain ⟨L', hL', hent, hseq⟩ := ih (n + 1)
    refine ⟨_, byPartSteps_cons pid sp more n L' hL', ?_, ?_⟩
    · simp [hent]
    · rw [List.length_cons, List.range'_succ]
      simp [hseq]

theorem byPartAux_cons (p : Part) (rest : List Part) (n : Nat)
    (L1 L2 : List GlobalLayer)
    (h1 : byPartSteps p.id p.steps n = some L1)
    (h2 : byPartAux rest (n + p.steps.length) = some L2) :
    byPartAux (p :: rest) n = some (L1 ++ L2) := by
  conv_lhs => unfold byPartAux
  simp only [getId_eq, countStepPairs_eq, h1, h2]

theorem totalSteps_cons (p : Part) (rest : List Part) :
    totalSteps (p :: rest) = p.steps.length + totalSteps rest := by
  simp [totalSteps, countStepPairs_eq]

/-- `kByPart` always succeeds; its schedule is one singleton layer per step,
in part order then step order, with consecutive sequence indices. -/
theorem byPartAux_spec :
    ∀ (parts : List Part) (n : Nat),
      ∃ L, byPartAux parts n = some L ∧
        L.map GlobalLayer.entries =
          (parts.map (fun p => p.steps.map (fun sp => [(p.id, sp)]))).flatten ∧
        L.map GlobalLayer.seq = List.range' n (totalSteps parts) ∧
        L.length = totalSteps parts := by
  intro parts
  induction parts with
  | nil => exact fun n => ⟨[], rfl, rfl, rfl, rfl⟩
  | cons p rest ih =>
    intro n
    obtain ⟨L1, hL1, hent1, hseq1⟩ := byPartSteps_spec p.id p.steps n
    obtain ⟨L2, hL2, hent2, hseq2, hlen2⟩ := ih (n + p.steps.length)
    have hlen1 : L1.length = p.steps.length := by
      have := congrArg List.length hseq1
      simpa using this
    refine ⟨L1 ++ L2, byPartAux_cons p rest n L1 L2 hL1 hL2, ?_, ?_, ?_⟩
    · simp [hent1, hent2]
    · rw [List.map_append, hseq1, hseq2, totalSteps_cons, range'_append_one]
    · simp [hlen1, hlen2, totalSteps_cons]

theorem partTrace_run_self (pid0 : Nat) (steps : List StepPair)
    (L1 : List GlobalLayer)
    (hent : L1.map GlobalLayer.entries = steps.map (fun sp => [(pid0, sp)])) :
    partTrace pid0 L1 = steps := by
  unfold partTrace
  have : L1.map (fun g => keyEntries pid0 g.entries) =
      (L1.map GlobalLayer.entries).map (keyEntries pid0) := by
    rw [List.map_map]
    rfl
  rw [this, hent, List.map_map]
  have : (fun sp => keyEntries pid0 [(pid0, sp)]) = (fun sp : StepPair => [sp]) := by
    funext sp
    exact keyEntries_singleton_self pid0 sp
  rw [show ((keyEntries pid0) ∘ fun sp => [(pid0, sp)]) =
      (fun sp : StepPair => [sp]) from this]
  exact flatten_map_singleton steps

theorem partTrace_run_other (pid0 pid : Nat) (steps : List StepPair)
    (L1 : List GlobalLayer) (hne : pid ≠ pid0)
    (hent : L1.map GlobalLayer.entries = steps.map (fun sp => [(pid0, sp)])) :
    partTrace pid L1 = [] := by
  unfold partTrace
  have : L1.map (fun g => keyEntries pid g.entries) =
      (L1.map GlobalLayer.entries).map (keyEntries pid) := by
    rw [List.map_map]
    rfl
  rw [this, hent, List.map_map]
  have hfun : ((keyEntries pid) ∘ fun sp => [(pid0, sp)]) =
      (fun _ : StepPair => ([] : List StepPair)) := by
    funext sp
    exact keyEntries_singleton_ne pid pid0 sp (fun hcontra => hne hcontra.symm)
  rw [hfun]
  exact flatten_map_nil steps

theorem byPartAux_trace (parts : List Part) (hids : (partIds parts).Nodup) :
    ∀ (n : Nat) (L : List GlobalLayer),
      byPartAux parts n = some L →
      (∀ p ∈ parts, partTrace p.id L = p.steps) ∧
      (∀ pid, pid ∉ partIds parts → partTrace pid L = []) := by
  induction parts with
  | nil =>
    intro n L h
    obtain rfl : ([] : List GlobalLayer) = L := Option.some.inj h
    exact ⟨fun p hp => absurd hp (List.not_mem_nil p), fun pid _ => partTrace_nil pid⟩
  | cons p rest ih =>
    intro n L h
    rw [partIds_cons] at hids
    have hprest : p.id ∉ partIds rest := (List.nodup_cons.1 hids).1
    have hids' : (partIds rest).Nodup := (List.nodup_cons.1 hids).2
    unfold byPartAux at h
    split at h
    · cases h
    · next L1 h1 =>
      split at h
      · cases h
      · next L2 h2 =>
        cases h
        simp only [getId_eq, countStepPairs_eq] at h1 h2
        obtain ⟨L1', hL1', hent1, _⟩ := byPartSteps_spec p.id p.steps n
        rw [hL1'] at h1
        obtain rfl : L1' = L1 := Option.some.inj h1
        obtain ⟨htrest, hother⟩ := ih hids' (n + p.steps.length) L2 h2
        constructor
        · intro q hq
          rw [partTrace_append]
          rcases List.mem_cons.1 hq with rfl | hq'
          · rw [partTrace_run_self q.id q.steps L1' hent1,
              hother q.id hprest, List.append_nil]
          · have hqne : q.id ≠ p.id := fun hcontra =>
              hprest (hcontra ▸ mem_partIds.2 ⟨q, hq', rfl⟩)
            rw [partTrace_run_other p.id q.id p.steps L1' hqne hent1,
              htrest q hq', List.nil_append]
        · intro pid hpid
          rw [partIds_cons] at hpid
          have hpne : pid ≠ p.id := fun hcontra =>
            hpid (hcontra ▸ List.mem_cons_self _ _)
          have hprest' : pid ∉ partIds rest := fun hcontra =>
            hpid (List.mem_cons_of_mem _ hcontra)
          rw [partTrace_append,
            partTrace_run_other p.id pid p.steps L1' hpne hent1,
            hother pid hprest', List.append_nil]

theorem byPartSteps_keys (pid : Nat) :
    ∀ (steps : List StepPair) (n : Nat) (L : List GlobalLayer),
      byPartSteps pid steps n = some L →
      ∀ g ∈ L, (g.entries.map Prod.fst).Nodup := by
  intro steps
  induction steps with
  | nil =>
    intro n L h g hg
    obtain rfl : ([] : List GlobalLayer) = L := Option.some.inj h
    cases hg
  | cons sp more ih =>
    intro n L h g hg
    unfold byPartSteps at h
    split at h
    · cases h
    · next g1 hg1 =>
      split at h
      · cases h
      · next L' hL' =>
        cases h
        rcases List.mem_cons.1 hg with rfl | hg'
        · exact addStepPair_keys _ _ _ _ hg1 (by simp)
        · exact ih _ _ hL' g hg'

theorem byPartAux_keys :
    ∀ (parts : List Part) (n : Nat) (L : List GlobalLayer),
      byPartAux parts n = some L →
      ∀ g ∈ L, (g.entries.map Prod.fst).Nodup := by
  intro parts
  induction parts with
  | nil =>
    intro n L h g hg
    obtain rfl : ([] : List GlobalLayer) = L := Option.some.inj h
    cases hg
  | cons p rest ih =>
    intro n L h g hg
    unfold byPartAux at h
    split at h
    · cases h
    · next L1 h1 =>
      split at h
      · cases h
      · next L2 h2 =>
        cases h
        rcases List.mem_append.1 hg with hg' | hg'
        · exact byPartSteps_keys _ _ _ _ h1 g hg'
        · exact ih _ _ h2 g hg'

end ByPart

section PopulateStep

theorem addDirty_spec (pid : Nat) (sps : List StepPair) (g0 : GlobalLayer)
    (hhp : g0.hasPart pid = false) (hlen : sps.length ≤ 1) :
    addDirty pid sps g0 = some ⟨g0.seq, g0.entries ++ sps.map (fun sp => (pid, sp))⟩ := by
  match sps with
  | [] =>
    show some g0 = _
    simp
  | [sp] =>
    have hadd : g0.addStepPair pid sp = some ⟨g0.seq, g0.entries ++ [(pid, sp)]⟩ :=
      addStepPair_of_hasPart_false g0 pid sp hhp
    conv_lhs => unfold addDirty
    simp only [hadd]
    rfl
  | sp1 :: sp2 :: more =>
    simp at hlen

theorem addDirty_keys (pid : Nat) :
    ∀ (sps : List StepPair) (g g' : GlobalLayer),
      addDirty pid sps g = some g' →
      (g.entries.map Prod.fst).Nodup → (g'.entries.map Prod.fst).Nodup := by
  intro sps
  induction sps with
  | nil =>
    intro g g' h hn
    obtain rfl : g = g' := Option.some.inj h
    exact hn
  | cons sp more ih =>
    intro g g' h hn
    unfold addDirty at h
    split at h
    · cases h
    · next g2 hg2 => exact ih _ _ h (addStepPair_keys _ _ _ _ hg2 hn)

theorem populateStepAux_spec :
    ∀ (parts : List Part) (g0 : GlobalLayer),
      (partIds parts).Nodup →
      (∀ p ∈ parts, g0.hasPart p.id = false) →
      (∀ p ∈ parts, p.dirty.length ≤ 1) →
      populateStepAux parts g0 =
        some ⟨g0.seq, g0.entries ++
          (parts.map (fun p => p.dirty.map (fun sp => (p.id, sp)))).flatten⟩ := by
  intro parts
  induction parts with
  | nil =>
    intro g0 _ _ _
    show some g0 = _
    simp
  | cons p rest ih =>
    intro g0 hids hdisj hdirty
    rw [partIds_cons] at hids
    have hprest : p.id ∉ partIds rest := (List.nodup_cons.1 hids).1
    have hids' : (partIds rest).Nodup := (List.nodup_cons.1 hids).2
    have hdisj_p : g0.hasPart p.id = false := hdisj p (List.mem_cons_self _ _)
    have hdirty_p : p.dirty.length ≤ 1 := hdirty p (List.mem_cons_self _ _)
    have hadd : addDirty p.id p.dirty g0 =
        some ⟨g0.seq, g0.entries ++ p.dirty.map (fun sp => (p.id, sp))⟩ :=
      addDirty_spec p.id p.dirty g0 hdisj_p hdirty_p
    have hdisj' : ∀ q ∈ rest,
        (GlobalLayer.mk g0.seq (g0.entries ++ p.dirty.map (fun sp => (p.id, sp)))).hasPart
          q.id = false := by
      intro q hq
      have hqne : p.id ≠ q.id := fun hcontra =>
        hprest (hcontra ▸ mem_partIds.2 ⟨q, hq, rfl⟩)
      have hq0 : g0.hasPart q.id = false := hdisj q (List.mem_cons_of_mem _ hq)
      rw [hasPart_eq_false_iff] at hq0 ⊢
      intro e he
      rcases List.mem_append.1 he with he' | he'
      · exact hq0 e he'
      · rcases List.mem_map.1 he' with ⟨sp, _, rfl⟩
        exact hqne
    have hrec := ih _ hids' hdisj'
      (fun q hq => hdirty q (List.mem_cons_of_mem _ hq))
    conv_lhs => unfold populateStepAux
    simp only [getId_eq, Part.getDirtyStepPairs, hadd, hrec]
    simp

theorem populateStepAux_keys :
    ∀ (parts : List Part) (g g' : GlobalLayer),
      populateStepAux parts g = some g' →
      (g.entries.map Prod.fst).Nodup → (g'.entries.map Prod.fst).Nodup := by
  intro parts
  induction parts with
  | nil =>
    intro g g' h hn
    obtain rfl : g = g' := Option.some.inj h
    exact hn
  | cons p rest ih =>
    intro g g' h hn
    unfold populateStepAux at h
    split at h
    · cases h
    · next g2 hg2 => exact ih _ _ h (addDirty_keys _ _ _ _ hg2 hn)

end PopulateStep

section Degenerate

theorem maxSteps_zero (parts : List Part) (hz : ∀ p ∈ parts, p.steps = []) :
    maxSteps parts = 0 := by
  unfold maxSteps
  induction parts with
  | nil => rfl
  | cons p rest ih =>
    have hp : p.countStepPairs = 0 := by
      rw [countStepPairs_eq, hz p (List.mem_cons_self _ _)]
      rfl
    show List.foldl (fun a q => max a q.countStepPairs) (max 0 p.countStepPairs) rest = 0
    rw [hp]
    exact ih (fun q hq => hz q (List.mem_cons_of_mem _ hq))

theorem totalSteps_zero (parts : List Part) (hz : ∀ p ∈ parts, p.steps = []) :
    totalSteps parts = 0 := by
  unfold totalSteps
  apply List.sum_eq_zero
  intro x hx
  rcases List.mem_map.1 hx with ⟨p, hp, rfl⟩
  rw [countStepPairs_eq, hz p hp]
  rfl

end Degenerate

section Claims

/-- Claim C1: for every parts list (with distinct part ids and a valid,
nonnegative grouping tolerance) and every recognized ordering policy,
`populateSteps` succeeds and schedules, for each part, exactly that part's
step sequence in index-increasing order (so every `(partId, stepIndex)` pair
appears exactly once), and no entries for unknown part ids appear. -/
theorem claim1_completeness_order (sb : SettingsBase) (parts : List Part)
    (hrec : sb.layerOrdering = LayerOrdering.kByHeight ∨
      sb.layerOrdering = LayerOrdering.kByLayerNumber ∨
      sb.layerOrdering = LayerOrdering.kByPart)
    (hids : (partIds parts).Nodup)
    (htol : 0 ≤ sb.layerGroupingTolerance) :
    ∃ L, populateSteps sb parts = some L ∧
      (∀ p ∈ parts, partTrace p.id L = p.steps) ∧
      (∀ pid, pid ∉ partIds parts → partTrace pid L = []) := by
  rcases sb with ⟨ord, tol, pa, pb, pc⟩
  simp only at htol
  rcases hrec with h | h | h <;> (simp only at h; subst h)
  · -- kByHeight
    obtain ⟨L, hL⟩ := byHeightLoop_success tol parts hids htol
      (totalSteps parts + 1) (fun _ => 0) 0 (by rw [remaining_zero_cursor]; omega)
    refine ⟨L, hL, ?_, ?_⟩
    · intro p hp
      have := (byHeightLoop_trace tol parts hids (totalSteps parts + 1) true
        (fun _ => 0) 0 L hL).1 p hp
      simpa using this
    · exact (byHeightLoop_trace tol parts hids (totalSteps parts + 1) true
        (fun _ => 0) 0 L hL).2
  · -- kByLayerNumber
    obtain ⟨L, hL, _, _⟩ := byLayerNumberAux_spec parts hids (maxSteps parts) 0
    refine ⟨L, hL, ?_, (byLayerNumberAux_trace parts hids (maxSteps parts) 0 L hL).2⟩
    intro p hp
    have := (byLayerNumberAux_trace parts hids (maxSteps parts) 0 L hL).1 p hp
    rw [List.drop_zero, List.take_of_length_le (le_maxSteps parts p hp)] at this
    exact this
  · -- kByPart
    obtain ⟨L, hL, _, _, _⟩ := byPartAux_spec parts 0
    exact ⟨L, hL, (byPartAux_trace parts hids 0 L hL).1,
      (byPartAux_trace parts hids 0 L hL).2⟩

theorem claim1_witness :
    partTrace 1 [GlobalLayer.mk 0 [(1, ⟨⟨0, 0⟩⟩)]] = [⟨⟨0, 0⟩⟩] := by
  obtain ⟨L, hL, htr, _⟩ := claim1_completeness_order
    ⟨LayerOrdering.kByHeight, 0, 0, 0, 0⟩ [⟨1, [⟨⟨0, 0⟩⟩], []⟩]
    (Or.inl rfl) (by decide) (by norm_num)
  have hconc : populateSteps ⟨LayerOrdering.kByHeight, 0, 0, 0, 0⟩
      [⟨1, [⟨⟨0, 0⟩⟩], []⟩] = some [GlobalLayer.mk 0 [(1, ⟨⟨0, 0⟩⟩)]] := by
    norm_num [populateSteps, populateStepsByHeight, byHeightLoop, totalSteps, findMin,
      findMinAux, groupPass, stepsLeft, GlobalLayer.addStepPair, GlobalLayer.hasPart,
      planeIsEqual, shiftedDist, updateCur, Part.getId, Part.countStepPairs]
  rw [hL] at hconc
  obtain rfl : L = [GlobalLayer.mk 0 [(1, ⟨⟨0, 0⟩⟩)]] := Option.some.inj hconc
  exact htr ⟨1, [⟨⟨0, 0⟩⟩], []⟩ (List.mem_cons_self _ _)

/-- Claim C2: every `GlobalLayer` that `populateStep` or `populateSteps`
returns maps each part id to at most one step pair: its entry keys are
pairwise distinct, because `addStepPair` refuses duplicates. -/
theorem claim2_unique_part_entries (parts : List Part) :
    (∀ g, populateStep parts = some g → (g.entries.map Prod.fst).Nodup) ∧
    (∀ (sb : SettingsBase) (L : List GlobalLayer),
      populateSteps sb parts = some L →
      ∀ g ∈ L, (g.entries.map Prod.fst).Nodup) := by
  constructor
  · intro g h
    exact populateStepAux_keys parts _ _ h (by simp)
  · intro sb L h g hg
    rcases sb with ⟨ord, tol, pa, pb, pc⟩
    cases ord with
    | kByHeight =>
      exact byHeightLoop_keys tol parts (totalSteps parts + 1) true
        (fun _ => 0) 0 L h g hg
    | kByLayerNumber =>
      exact byLayerNumberAux_keys parts (maxSteps parts) 0 L h g hg
    | kByPart =>
      exact byPartAux_keys parts 0 L h g hg
    | unrecognized k =>
      cases h

theorem claim2_witness :
    ((GlobalLayer.mk 0 [(1, ⟨⟨0, 0⟩⟩)]).entries.map Prod.fst).Nodup :=
  (claim2_unique_part_entries [⟨1, [], [⟨⟨0, 0⟩⟩]⟩]).1
    (GlobalLayer.mk 0 [(1, ⟨⟨0, 0⟩⟩)]) (by decide)

/-- Claim C3 counterexample: under `kByHeight` the `while` loop's flag starts
`true`, so with zero parts the body still runs once and one empty
`GlobalLayer` is returned — not an empty list. -/
theorem claim3_counterexample :
    populateSteps ⟨LayerOrdering.kByHeight, 0, 0, 0, 0⟩ [] =
      some [GlobalLayer.mk 0 []] ∧
    (some [GlobalLayer.mk 0 []] : Option (List GlobalLayer)) ≠ some [] := by
  constructor
  · norm_num [populateSteps, populateStepsByHeight, byHeightLoop, totalSteps,
      findMin, findMinAux, stepsLeft]
  · decide

/-- Claim C3 (amended): with zero parts or all-zero step counts,
`kByLayerNumber` and `kByPart` return an empty list; `kByHeight` returns
exactly one empty `GlobalLayer` with sequence index 0, because its loop body
runs once before `steps_left` is recomputed; and once `steps_left` is found
false the loop appends nothing further. -/
theorem claim3_amended (parts : List Part) (tol : ℚ)
    (hz : ∀ p ∈ parts, p.steps = []) :
    populateStepsByLayerNumber parts = some [] ∧
    populateStepsByPart parts = some [] ∧
    populateStepsByHeight tol parts = some [GlobalLayer.mk 0 []] ∧
    (∀ (fuel : Nat) (c : Nat → Nat) (n : Nat),
      byHeightLoop parts tol fuel false c n = some []) := by
  have hsl : stepsLeft parts (fun _ => 0) = false := by
    rw [stepsLeft_eq_false_iff]
    intro p hp
    rw [hz p hp]
    exact Nat.le_refl 0
  refine ⟨?_, ?_, ?_, fun fuel c n => byHeightLoop_false parts tol fuel c n⟩
  · unfold populateStepsByLayerNumber
    rw [maxSteps_zero parts hz]
    rfl
  · obtain ⟨L, hL, _, _, hlen⟩ := byPartAux_spec parts 0
    rw [totalSteps_zero parts hz] at hlen
    rw [List.length_eq_zero] at hlen
    subst hlen
    exact hL
  · have hfm : findMin parts (fun _ => 0) = none := by
      apply findMinAux_all_inactive
      intro p hp
      rw [hz p hp]
      simp
    unfold populateStepsByHeight
    rw [totalSteps_zero parts hz]
    apply byHeightLoop_succ_of_none parts tol 0 (fun _ => 0) 0 [] hfm
    rw [hsl]
    exact byHeightLoop_false parts tol 0 (fun _ => 0) 1

theorem claim3_witness :
    populateStepsByLayerNumber [] = some [] ∧
    populateStepsByPart [] = some [] ∧
    populateStepsByHeight 0 [] = some [GlobalLayer.mk 0 []] ∧
    byHeightLoop [] 0 5 false (fun _ => 0) 0 = some [] := by
  have h := claim3_amended [] 0 (fun p hp => absurd hp (List.not_mem_nil p))
  exact ⟨h.1, h.2.1, h.2.2.1, h.2.2.2 5 (fun _ => 0) 0⟩

/-- Claim C4 counterexample: with tolerance 3, parts at shifted distances
0, 3 and 5: the parts at 3 and 5 differ by 2, strictly less than the
tolerance, yet the part at 3 is grouped with the minimum (0) into layer 0
while the part at 5 is scheduled alone in layer 1 — grouping is relative to
the iteration minimum, not pairwise. -/
theorem claim4_counterexample :
    populateStepsByHeight 3
      [⟨1, [⟨⟨0, 0⟩⟩], []⟩, ⟨2, [⟨⟨3, 0⟩⟩], []⟩, ⟨3, [⟨⟨5, 0⟩⟩], []⟩] =
      some [⟨0, [(1, ⟨⟨0, 0⟩⟩), (2, ⟨⟨3, 0⟩⟩)]⟩, ⟨1, [(3, ⟨⟨5, 0⟩⟩)]⟩] ∧
    |shiftedDist ⟨⟨3, 0⟩⟩ - shiftedDist ⟨⟨5, 0⟩⟩| < 3 ∧
    sameLayer [⟨0, [(1, ⟨⟨0, 0⟩⟩), (2, ⟨⟨3, 0⟩⟩)]⟩, ⟨1, [(3, ⟨⟨5, 0⟩⟩)]⟩] 2 3 = false := by
  refine ⟨?_, by norm_num [shiftedDist], by decide⟩
  norm_num [populateStepsByHeight, byHeightLoop, totalSteps, findMin, findMinAux,
    groupPass, stepsLeft, GlobalLayer.addStepPair, GlobalLayer.hasPart, planeIsEqual,
    shiftedDist, updateCur, Part.getId, Part.countStepPairs]

/-- Claim C4 (amended): under `kByHeight` (distinct part ids), any two step
pairs placed in the same `GlobalLayer` have shifted-plane distances within
the grouping tolerance of each other — so distances differing by strictly
more than the tolerance always land in separate layers — but two layers
within tolerance of each other may still be split, since grouping compares
each layer to the iteration minimum, not pairwise. -/
theorem claim4_amended (tol : ℚ) (parts : List Part)
    (hids : (partIds parts).Nodup) (L : List GlobalLayer)
    (h : populateStepsByHeight tol parts = some L) :
    ∀ g ∈ L, ∀ e1 ∈ g.entries, ∀ e2 ∈ g.entries,
      |shiftedDist e1.2 - shiftedDist e2.2| ≤ tol :=
  byHeightLoop_tol tol parts hids (totalSteps parts + 1) true (fun _ => 0) 0 L h

theorem claim4_witness :
    |shiftedDist ⟨⟨0, 0⟩⟩ - shiftedDist ⟨⟨3, 0⟩⟩| ≤ 3 := by
  have hrun : populateStepsByHeight 3
      [⟨1, [⟨⟨0, 0⟩⟩], []⟩, ⟨2, [⟨⟨3, 0⟩⟩], []⟩, ⟨3, [⟨⟨5, 0⟩⟩], []⟩] =
      some [⟨0, [(1, ⟨⟨0, 0⟩⟩), (2, ⟨⟨3, 0⟩⟩)]⟩, ⟨1, [(3, ⟨⟨5, 0⟩⟩)]⟩] := by
    norm_num [populateStepsByHeight, byHeightLoop, totalSteps, findMin, findMinAux,
      groupPass, stepsLeft, GlobalLayer.addStepPair, GlobalLayer.hasPart, planeIsEqual,
      shiftedDist, updateCur, Part.getId, Part.countStepPairs]
  exact claim4_amended 3
    [⟨1, [⟨⟨0, 0⟩⟩], []⟩, ⟨2, [⟨⟨3, 0⟩⟩], []⟩, ⟨3, [⟨⟨5, 0⟩⟩], []⟩] (by decide)
    [⟨0, [(1, ⟨⟨0, 0⟩⟩), (2, ⟨⟨3, 0⟩⟩)]⟩, ⟨1, [(3, ⟨⟨5, 0⟩⟩)]⟩] hrun
    ⟨0, [(1, ⟨⟨0, 0⟩⟩), (2, ⟨⟨3, 0⟩⟩)]⟩ (by decide)
    (1, ⟨⟨0, 0⟩⟩) (by decide) (2, ⟨⟨3, 0⟩⟩) (by decide)

/-- Claim C5: under `kByLayerNumber` (distinct part ids), the schedule has
exactly `maxSteps` layers, and layer `i` has sequence index `i` and holds
precisely each part's step pair at index `i`, for every part with more than
`i` steps, and nothing else. -/
theorem claim5_by_layer_number (parts : List Part)
    (hids : (partIds parts).Nodup) :
    ∃ L, populateStepsByLayerNumber parts = some L ∧
      L.length = maxSteps parts ∧
      ∀ (i : Nat) (hi : i < L.length),
        L[i].seq = i ∧
        L[i].entries = parts.filterMap (layerNumberContribution i) := by
  obtain ⟨L, hL, hlen, hget⟩ := byLayerNumberAux_spec parts hids (maxSteps parts) 0
  refine ⟨L, hL, hlen, ?_⟩
  intro i hi
  rw [hget i hi]
  exact ⟨by simp, by simp⟩

theorem claim5_witness :
    (GlobalLayer.mk 1 [(1, ⟨⟨1, 0⟩⟩)]).seq = 1 ∧
    (GlobalLayer.mk 1 [(1, ⟨⟨1, 0⟩⟩)]).entries =
      ([⟨1, [⟨⟨0, 0⟩⟩, ⟨⟨1, 0⟩⟩], []⟩, ⟨2, [⟨⟨0, 0⟩⟩], []⟩] : List Part).filterMap
        (layerNumberContribution 1) := by
  obtain ⟨L, hL, hlen, hget⟩ := claim5_by_layer_number
    [⟨1, [⟨⟨0, 0⟩⟩, ⟨⟨1, 0⟩⟩], []⟩, ⟨2, [⟨⟨0, 0⟩⟩], []⟩] (by decide)
  have hconc : populateStepsByLayerNumber
      [⟨1, [⟨⟨0, 0⟩⟩, ⟨⟨1, 0⟩⟩], []⟩, ⟨2, [⟨⟨0, 0⟩⟩], []⟩] =
      some [⟨0, [(1, ⟨⟨0, 0⟩⟩), (2, ⟨⟨0, 0⟩⟩)]⟩, ⟨1, [(1, ⟨⟨1, 0⟩⟩)]⟩] := by decide
  rw [hL] at hconc
  obtain rfl : L = [⟨0, [(1, ⟨⟨0, 0⟩⟩), (2, ⟨⟨0, 0⟩⟩)]⟩, ⟨1, [(1, ⟨⟨1, 0⟩⟩)]⟩] :=
    Option.some.inj hconc
  exact hget 1 (by decide)

/-- Claim C6: under `kByPart`, the schedule always succeeds with one
singleton layer per step — as many layers as the total step count, each
part's layers forming a contiguous run in input order with its steps in their
own order, and sequence indices consecutive from 0. -/
theorem claim6_by_part (parts : List Part) :
    ∃ L, populateStepsByPart parts = some L ∧
      L.length = totalSteps parts ∧
      L.map GlobalLayer.entries =
        (parts.map (fun p => p.steps.map (fun sp => [(p.id, sp)]))).flatten ∧
      L.map GlobalLayer.seq = List.range (totalSteps parts) := by
  obtain ⟨L, hL, hent, hseq, hlen⟩ := byPartAux_spec parts 0
  refine ⟨L, hL, hlen, hent, ?_⟩
  rw [hseq, List.range_eq_range']

/-- Claim C7: `populateStep` (for valid inputs: distinct ids, at most one
dirty step pair per part — `addStepPair` faults otherwise) returns exactly
one `GlobalLayer` with sequence index 0 whose entries are precisely all the
parts' dirty step pairs, in part order; a part with no dirty steps
contributes nothing, and an empty parts list yields an empty mapping. -/
theorem claim7_populate_step (parts : List Part)
    (hids : (partIds parts).Nodup)
    (hdirty : ∀ p ∈ parts, p.dirty.length ≤ 1) :
    populateStep parts =
      some ⟨0, (parts.map (fun p => p.dirty.map (fun sp => (p.id, sp)))).flatten⟩ := by
  unfold populateStep
  rw [populateStepAux_spec parts ⟨0, []⟩ hids
    (fun p _ => hasPart_mk_nil 0 p.id) hdirty]
  rfl

theorem claim7_witness :
    populateStep [⟨1, [], [⟨⟨0, 0⟩⟩]⟩, ⟨2, [], []⟩, ⟨3, [], [⟨⟨2, 0⟩⟩]⟩] =
      some ⟨0, [(1, ⟨⟨0, 0⟩⟩), (3, ⟨⟨2, 0⟩⟩)]⟩ := by
  have h := claim7_populate_step [⟨1, [], [⟨⟨0, 0⟩⟩]⟩, ⟨2, [], []⟩, ⟨3, [], [⟨⟨2, 0⟩⟩]⟩]
    (by decide) (by decide)
  rw [h]
  rfl

/-- Claim C8: the `kByHeight` loop terminates for every finite parts list
(with distinct ids and nonnegative tolerance): the fueled loop with
`totalSteps + 1` fuel never runs out, because any grouping pass following a
successful minimum search advances at least the minimum part (the minimum
plane matches itself), so the sum of remaining unscheduled steps strictly
decreases. -/
theorem claim8_termination (tol : ℚ) (parts : List Part)
    (hids : (partIds parts).Nodup) (htol : 0 ≤ tol) :
    (∃ L, populateStepsByHeight tol parts = some L) ∧
    (∀ (c : Nat → Nat) (n : Nat) (mid : Nat) (md : ℚ) (g : GlobalLayer)
      (c' : Nat → Nat),
      findMin parts c = some (mid, md) →
      groupPass tol md parts (GlobalLayer.mk n []) c = some (g, c') →
      remaining parts c' < remaining parts c) := by
  constructor
  · exact byHeightLoop_success tol parts hids htol (totalSteps parts + 1)
      (fun _ => 0) 0 (by rw [remaining_zero_cursor]; omega)
  · intro c n mid md g c' hfm hgp
    obtain ⟨pm, hpm, hpmid, hact, hdist⟩ := findMin_mem parts c mid md hfm
    obtain ⟨g2, c2, heq, _, _, hout, hcur⟩ :=
      groupPass_spec tol md parts (GlobalLayer.mk n []) c hids
        (fun p _ => hasPart_mk_nil n p.id)
    rw [heq] at hgp
    have hpair := Option.some.inj hgp
    have hc2 : c2 = c' := congrArg Prod.snd hpair
    subst hc2
    have hm : matched tol md c pm = true :=
      matched_true_of_min tol md c pm htol hact hdist
    have hadv : c2 pm.id = c pm.id + 1 := by
      rw [hcur pm hpm, hm]
      simp
    have hmono : ∀ p ∈ parts, c p.id ≤ c2 p.id := by
      intro p hp
      rw [hcur p hp]
      split <;> omega
    exact remaining_lt_of_advance parts c c2 hmono pm hpm hact hadv

theorem claim8_witness :
    (populateStepsByHeight 0 [⟨1, [⟨⟨0, 0⟩⟩], []⟩]).isSome = true := by
  obtain ⟨L, hL⟩ := (claim8_termination 0 [⟨1, [⟨⟨0, 0⟩⟩], []⟩]
    (by decide) (by norm_num)).1
  rw [hL]
  rfl

/-- Claim C9: `populateSteps` called with an ordering-policy value that is
none of the three recognized ones hits the fatal assertion, modelled as
`none`: no schedule, empty or otherwise, is ever returned. -/
theorem claim9_unrecognized_policy (k : Nat) (tol pa pb pc : ℚ)
    (parts : List Part) :
    populateSteps ⟨LayerOrdering.unrecognized k, tol, pa, pb, pc⟩ parts = none := rfl

/-- Claim C10: under `kByHeight` (distinct ids, nonnegative tolerance), if at
least one part has an unscheduled step when the run starts, every produced
`GlobalLayer` is non-empty: each iteration's layer receives at least the
step pair of the part that achieved the minimum shifted-plane distance. -/
theorem claim10_nonempty_layers (tol : ℚ) (parts : List Part)
    (hids : (partIds parts).Nodup) (htol : 0 ≤ tol)
    (hsl : stepsLeft parts (fun _ => 0) = true)
    (L : List GlobalLayer) (h : populateStepsByHeight tol parts = some L) :
    ∀ g ∈ L, g.entries ≠ [] :=
  byHeightLoop_nonempty tol parts hids htol (totalSteps parts + 1)
    (fun _ => 0) 0 L hsl h

theorem claim10_witness :
    (GlobalLayer.mk 0 [(1, ⟨⟨0, 0⟩⟩)]).entries ≠ [] := by
  have hrun : populateStepsByHeight 0 [⟨1, [⟨⟨0, 0⟩⟩], []⟩] =
      some [GlobalLayer.mk 0 [(1, ⟨⟨0, 0⟩⟩)]] := by
    norm_num [populateStepsByHeight, byHeightLoop, totalSteps, findMin, findMinAux,
      groupPass, stepsLeft, GlobalLayer.addStepPair, GlobalLayer.hasPart, planeIsEqual,
      shiftedDist, updateCur, Part.getId, Part.countStepPairs]
  exact claim10_nonempty_layers 0 [⟨1, [⟨⟨0, 0⟩⟩], []⟩] (by decide) (by norm_num)
    (by decide) [GlobalLayer.mk 0 [(1, ⟨⟨0, 0⟩⟩)]] hrun
    (GlobalLayer.mk 0 [(1, ⟨⟨0, 0⟩⟩)]) (by decide)

end Claims

end ORNL
